import Mathlib

/-!
Verification development for the journal engine in `jrnl/Journal.py`.

Strings are modelled as `List Char`, date-times as `Nat` (an abstract totally
ordered timestamp), and the external natural-language date resolver
`time.parse` as a function parameter `oracle : List Char → Option Nat`
(`none` models a failed resolution, mirroring `None`).
-/

namespace Jrnl

/-- Characters that Python's `str.strip` / `str.rstrip` remove (ASCII whitespace). -/
def isPySpace (c : Char) : Bool :=
  c = ' ' || c = '\t' || c = '\n' || c = '\r' || c = '\x0b' || c = '\x0c'

/-- Python `str.rstrip()`. -/
def rstrip (t : List Char) : List Char :=
  (t.reverse.dropWhile isPySpace).reverse

/-- Python `str.lstrip()`. -/
def lstrip (t : List Char) : List Char :=
  t.dropWhile isPySpace

/-- Python `str.strip()`. -/
def pstrip (t : List Char) : List Char :=
  rstrip (lstrip t)

/-- Python `str.lower()`, character by character. -/
def lcStr (t : List Char) : List Char :=
  t.map Char.toLower

/-- Python slice `txt[a:b]`. -/
def sliceD (txt : List Char) (a b : Nat) : List Char :=
  (txt.drop a).take (b - a)

/-- Entry record.  `date` and `text` are the structural identity of an entry
(spec section 3); `starred`, `modified` and `tags` mirror the remaining
attributes of the `Entry` class.  The `Entry` module itself is not part of the
source under verification; the fields it derives from `text` (`tags`,
display-time star handling) are carried here as plain data. -/
structure Entry where
  date : Nat
  text : List Char := []
  starred : Bool := false
  modified : Bool := false
  tags : List (List Char) := []
deriving DecidableEq

/-- Modelled from the spec: Entry equality is structural on `(date, text)`
(spec section 3); the `Entry` module implementing `__eq__` is external to the
source file. -/
def entryEqPy (a b : Entry) : Bool :=
  a.date == b.date && a.text == b.text

/-- A match of the date-marker regex `(?:^|\n)\[([^\]]+)\] `:
`mstart`/`mend` are Python's `match.start()`/`match.end()` and `blob` the
captured group (the text between the brackets). -/
structure MatchInfo where
  mstart : Nat
  mend : Nat
  blob : List Char
deriving DecidableEq

/-- Matching the `\[([^\]]+)\] ` part of the date-marker regex against a
suffix: the bracket must open immediately, the capture `[^\]]+` is the
(nonempty) run up to the first `]`, and `] ` must follow.  Returns the capture
together with the rest of the input after the match. -/
def bracketFrom : List Char → Option (List Char × List Char)
  | [] => none
  | c :: rest =>
    if c = '[' then
      let blob := rest.takeWhile (fun ch => ch != ']')
      let after := rest.drop blob.length
      if blob.isEmpty then none
      else if after.take 2 = [']', ' '] then some (blob, after.drop 2)
      else none
    else none

/-- The scanning loop of `re.finditer` for the date-marker regex, for
positions `> 0` (where only the `\n` alternative can apply).  `p` is the
absolute position of the head of the list in the overall text and `skip` the
number of characters still covered by the previous (non-overlapping) match. -/
def findIterS : List Char → Nat → Nat → List MatchInfo
  | [], _, _ => []
  | _ :: cs, p, skip + 1 => findIterS cs (p + 1) skip
  | c :: cs, p, 0 =>
    if c = '\n' then
      match bracketFrom cs with
      | some (blob, _) => ⟨p, p + blob.length + 4, blob⟩ :: findIterS cs (p + 1) (blob.length + 3)
      | none => findIterS cs (p + 1) 0
    else findIterS cs (p + 1) 0

/-- All matches of `re.finditer("(?:^|\n)\[([^\]]+)\] ", txt)`, in order.  At
position `0` the `^` alternative is tried first (a match there consumes
`[blob] `, i.e. `blob.length + 3` characters); everywhere the `\n`
alternative is handled by `findIterS`. -/
def findIter (txt : List Char) : List MatchInfo :=
  match bracketFrom txt with
  | some (blob, _) => ⟨0, blob.length + 3, blob⟩ :: findIterS txt 0 (blob.length + 3)
  | none => findIterS txt 0 0

/-- `entries[-1].text = t` guarded by `if entries:` — replaces the text of the
last entry of the list, if any. -/
def setLastText (t : List Char) : List Entry → List Entry
  | [] => []
  | [e] => [{ e with text := t }]
  | e :: rest => e :: setLastText t rest

/-- The loop of `Journal._parse`: for each regex match, resolve the captured
blob through the date oracle; a successful resolution closes the previous
entry (its text is the slice from `last_entry_pos` to `match.start()`) and
opens a new entry; a failed resolution changes nothing.  At the end the last
open entry receives the remaining text `txt[last_entry_pos:]`. -/
def parseLoop (oracle : List Char → Option Nat) (txt : List Char) :
    List MatchInfo → List Entry → Nat → List Entry
  | [], entries, lastPos => setLastText (txt.drop lastPos) entries
  | m :: ms, entries, lastPos =>
    match oracle m.blob with
    | some d =>
      parseLoop oracle txt ms
        (setLastText (sliceD txt lastPos m.mstart) entries ++ [{ date := d }]) m.mend
    | none => parseLoop oracle txt ms entries lastPos

/-- `Journal._parse` (current, bracketed-date format).  The final
`entry._parse_text()` pass derives `tags`/title inside the external `Entry`
module and does not change `date` or `text`, so it is not modelled. -/
def journalParse (oracle : List Char → Option Nat) (txt : List Char) : List Entry :=
  parseLoop oracle txt (findIter txt) [] 0

/-- The matches of `ms` whose captured blob the date oracle resolves, paired
with the resolved date. -/
def resolvedOf (oracle : List Char → Option Nat) (ms : List MatchInfo) :
    List (Nat × MatchInfo) :=
  ms.filterMap (fun m => (oracle m.blob).map (fun d => (d, m)))

/-- The date markers of `txt`: regex matches whose blob resolves to a date. -/
def resolvedMarkers (oracle : List Char → Option Nat) (txt : List Char) :
    List (Nat × MatchInfo) :=
  resolvedOf oracle (findIter txt)

/-- Start position of the next recognized marker, or the end of the text. -/
def headStart (txt : List Char) : List (Nat × MatchInfo) → Nat
  | [] => txt.length
  | (_, m) :: _ => m.mstart

/-- The entry list determined by a list of recognized date markers: each
entry's text runs from just after its own marker to just before the next
marker (or the end of the text). -/
def entriesOf (txt : List Char) : List (Nat × MatchInfo) → List Entry
  | [] => []
  | (d, m) :: rest =>
    { date := d, text := sliceD txt m.mend (headStart txt rest) } :: entriesOf txt rest

/-- `Journal.parse_editable_str`: re-parse the edited text, flag each parsed
entry as modified iff it equals (as `(date, text)`) no entry of the prior
collection, and return the parsed sequence (which replaces the journal's
entries). -/
def parse_editable_str (oracle : List Char → Option Nat) (prior : List Entry)
    (edited : List Char) : List Entry :=
  let mod_entries := journalParse oracle edited
  mod_entries.map (fun e => { e with modified := !(prior.any (fun old => entryEqPy e old)) })

/-! ### Characterization of the current-format parser -/

theorem setLastText_nil (t : List Char) : setLastText t [] = [] := rfl

theorem setLastText_append_single (t : List Char) (es : List Entry) (e : Entry) :
    setLastText t (es ++ [e]) = es ++ [{ e with text := t }] := by
  induction es with
  | nil => rfl
  | cons x xs ih =>
    cases xs with
    | nil => simp [setLastText]
    | cons y ys =>
      simp only [List.cons_append] at ih ⊢
      have h : setLastText t (x :: y :: (ys ++ [e])) = x :: setLastText t (y :: (ys ++ [e])) := rfl
      rw [h, ih]

theorem sliceD_to_end (txt : List Char) (a : Nat) :
    sliceD txt a txt.length = txt.drop a := by
  unfold sliceD
  have : txt.length - a = (txt.drop a).length := by simp
  rw [this, List.take_length]

theorem parseLoop_eq (oracle : List Char → Option Nat) (txt : List Char) :
    ∀ (ms : List MatchInfo) (entries : List Entry) (lastPos : Nat),
      parseLoop oracle txt ms entries lastPos =
        match resolvedOf oracle ms with
        | [] => setLastText (txt.drop lastPos) entries
        | (d, m) :: rs =>
          setLastText (sliceD txt lastPos m.mstart) entries ++ entriesOf txt ((d, m) :: rs) := by
  intro ms
  induction ms with
  | nil => intro entries lastPos; simp [parseLoop, resolvedOf]
  | cons m ms ih =>
    intro entries lastPos
    cases hres : oracle m.blob with
    | none =>
      have : resolvedOf oracle (m :: ms) = resolvedOf oracle ms := by
        simp [resolvedOf, hres]
      rw [this]
      show parseLoop oracle txt (m :: ms) entries lastPos = _
      simp only [parseLoop, hres]
      exact ih entries lastPos
    | some d =>
      have hr : resolvedOf oracle (m :: ms) = (d, m) :: resolvedOf oracle ms := by
        simp [resolvedOf, hres]
      rw [hr]
      show parseLoop oracle txt (m :: ms) entries lastPos = _
      simp only [parseLoop, hres]
      rw [ih]
      cases hms : resolvedOf oracle ms with
      | nil =>
        simp only [entriesOf, headStart, entriesOf]
        rw [setLastText_append_single, sliceD_to_end]
      | cons dm rs =>
        obtain ⟨d1, m1⟩ := dm
        simp only [entriesOf, headStart]
        rw [setLastText_append_single]
        simp

theorem journalParse_charn (oracle : List Char → Option Nat) (txt : List Char) :
    journalParse oracle txt = entriesOf txt (resolvedMarkers oracle txt) := by
  unfold journalParse resolvedMarkers
  rw [parseLoop_eq]
  cases h : resolvedOf oracle (findIter txt) with
  | nil => simp [entriesOf, setLastText]
  | cons dm rs => obtain ⟨d, m⟩ := dm; simp [setLastText]

/-! ### Claim C1: reconciliation in `parse_editable_str` -/

/-- C1: for every prior entry sequence and every edited text,
`parse_editable_str` parses the text into a fresh entry sequence (the journal's
new entries are exactly the parse of the edited text, as `(date, text)` data),
and marks each parsed entry modified if and only if no entry structurally equal
to it (same date and text) occurs in the prior sequence. -/
theorem claim1_parse_editable_str (oracle : List Char → Option Nat)
    (prior : List Entry) (edited : List Char) :
    (parse_editable_str oracle prior edited).map (fun e => (e.date, e.text))
        = (journalParse oracle edited).map (fun e => (e.date, e.text))
      ∧ ∀ e ∈ parse_editable_str oracle prior edited,
          (e.modified = true ↔ ¬ ∃ old ∈ prior, old.date = e.date ∧ old.text = e.text) := by
  constructor
  · unfold parse_editable_str
    simp
  · intro e he
    unfold parse_editable_str at he
    simp only [List.mem_map] at he
    obtain ⟨e0, _, rfl⟩ := he
    simp only [Bool.not_eq_true', List.any_eq_false, entryEqPy]
    constructor
    · intro h hex
      obtain ⟨old, hold, hd, ht⟩ := hex
      have hfalse := h old hold
      apply absurd _ hfalse
      simp [hd, ht]
    · intro h
      intro old hold
      by_contra hc
      simp only [Bool.not_eq_false, Bool.and_eq_true, beq_iff_eq] at hc
      exact h ⟨old, hold, hc.1.symm, hc.2.symm⟩

def oW1 : List Char → Option Nat := fun s =>
  if s = ['d', '1'] then some 10 else if s = ['d', '2'] then some 20 else none

def priorW1 : List Entry := [{ date := 10, text := ['A'] }]

def editedW1 : List Char := ['[', 'd', '1', ']', ' ', 'A', '\n', '[', 'd', '2', ']', ' ', 'B']

theorem claim1_witness :
    (parse_editable_str oW1 priorW1 editedW1).map (fun e => (e.date, e.text))
      = (journalParse oW1 editedW1).map (fun e => (e.date, e.text)) :=
  (claim1_parse_editable_str oW1 priorW1 editedW1).1

/-! ### Position bookkeeping for the regex scanner -/

theorem drop_append_len (a b : List Char) (n : Nat) :
    (a ++ b).drop (a.length + n) = b.drop n := by
  induction a with
  | nil => simp
  | cons x xs ih =>
    have harith : (x :: xs).length + n = (xs.length + n) + 1 := by
      simp only [List.length_cons]; omega
    rw [harith, List.cons_append, List.drop_succ_cons]
    exact ih

theorem drop_append_self (a b : List Char) : (a ++ b).drop a.length = b := by
  have h := drop_append_len a b 0
  rw [Nat.add_zero, List.drop_zero] at h
  exact h

theorem take_append_len (a b : List Char) : (a ++ b).take a.length = a := by
  induction a with
  | nil => simp
  | cons x xs ih =>
    rw [List.length_cons, List.cons_append, List.take_succ_cons, ih]

theorem drop_of_drop_cons {txt cs : List Char} {c : Char} {p : Nat}
    (h : txt.drop p = c :: cs) : txt.drop (p + 1) = cs := by
  rw [← List.drop_drop, h]
  rfl

theorem bracketFrom_eq_some {u blob tail : List Char}
    (h : bracketFrom u = some (blob, tail)) :
    u = '[' :: (blob ++ ']' :: ' ' :: tail) ∧ ']' ∉ blob ∧ blob ≠ [] := by
  cases u with
  | nil => exact absurd h (by simp [bracketFrom])
  | cons c rest =>
    simp only [bracketFrom] at h
    by_cases hc : c = '['
    · rw [if_pos hc] at h
      by_cases hemp : (rest.takeWhile (fun ch => ch != ']')).isEmpty = true
      · rw [if_pos hemp] at h
        exact absurd h (by simp)
      · rw [if_neg hemp] at h
        by_cases htk : (rest.drop (rest.takeWhile (fun ch => ch != ']')).length).take 2
            = [']', ' ']
        · rw [if_pos htk] at h
          simp only [Option.some.injEq, Prod.mk.injEq] at h
          obtain ⟨hblob, htail⟩ := h
          have htw : rest.take (rest.takeWhile (fun ch => ch != ']')).length
              = rest.takeWhile (fun ch => ch != ']') :=
            ((List.prefix_iff_eq_take).1 (List.takeWhile_prefix _)).symm
          have hsplit : rest.takeWhile (fun ch => ch != ']')
              ++ rest.drop (rest.takeWhile (fun ch => ch != ']')).length = rest := by
            conv_rhs => rw [← List.take_append_drop
              (rest.takeWhile (fun ch => ch != ']')).length rest]
            rw [htw]
          have hafter : rest.drop (rest.takeWhile (fun ch => ch != ']')).length
              = ']' :: ' ' :: tail := by
            conv_lhs => rw [← List.take_append_drop 2
              (rest.drop (rest.takeWhile (fun ch => ch != ']')).length)]
            rw [htk, htail]
            rfl
          refine ⟨?_, ?_, ?_⟩
          · rw [hc, ← hblob, ← hafter, hsplit]
          · intro hmem
            rw [← hblob] at hmem
            have := List.mem_takeWhile_imp hmem
            simp at this
          · intro hnil
            rw [← hblob] at hnil
            rw [hnil] at hemp
            simp at hemp
        · rw [if_neg htk] at h
          exact absurd h (by simp)
    · rw [if_neg hc] at h
      exact absurd h (by simp)

theorem takeWhile_append_not {p : Char → Bool} {f : List Char} {y : Char}
    (X : List Char) (hf : ∀ x ∈ f, p x = true) (hy : p y = false) :
    (f ++ y :: X).takeWhile p = f := by
  induction f with
  | nil => simp [List.takeWhile, hy]
  | cons x xs ih =>
    have hx : p x = true := hf x (by simp)
    rw [List.cons_append, List.takeWhile_cons_of_pos hx,
      ih (fun z hz => hf z (by simp [hz]))]

theorem bracketFrom_cons (c : Char) (rest : List Char) :
    bracketFrom (c :: rest)
      = if c = '[' then
          if (rest.takeWhile (fun ch => ch != ']')).isEmpty then none
          else if (rest.drop (rest.takeWhile (fun ch => ch != ']')).length).take 2
              = [']', ' '] then
            some (rest.takeWhile (fun ch => ch != ']'),
              (rest.drop (rest.takeWhile (fun ch => ch != ']')).length).drop 2)
          else none
        else none := rfl

/-- Computing `bracketFrom` on a well-shaped marker prefix. -/
theorem bracketFrom_shape {f : List Char} (X : List Char)
    (hna : ']' ∉ f) (hne : f ≠ []) :
    bracketFrom ('[' :: (f ++ ']' :: ' ' :: X)) = some (f, X) := by
  have htw : (f ++ ']' :: ' ' :: X).takeWhile (fun ch => ch != ']') = f := by
    apply takeWhile_append_not
    · intro x hx
      simp only [bne_iff_ne, ne_eq]
      intro hEq
      exact hna (hEq ▸ hx)
    · simp
  have hdrop : (f ++ ']' :: ' ' :: X).drop f.length = ']' :: ' ' :: X :=
    drop_append_self f _
  rw [bracketFrom_cons, if_pos rfl, htw, hdrop]
  rw [if_neg (by simp [hne])]
  simp

/-! ### Content and ordering of scanner matches -/

theorem findIterS_cons_succ (c : Char) (cs : List Char) (p skip : Nat) :
    findIterS (c :: cs) p (skip + 1) = findIterS cs (p + 1) skip := rfl

theorem findIterS_cons_zero (c : Char) (cs : List Char) (p : Nat) :
    findIterS (c :: cs) p 0
      = if c = '\n' then
          match bracketFrom cs with
          | some (blob, _) =>
            ⟨p, p + blob.length + 4, blob⟩ :: findIterS cs (p + 1) (blob.length + 3)
          | none => findIterS cs (p + 1) 0
        else findIterS cs (p + 1) 0 := rfl

theorem findIterS_nl_some {cs blob tl : List Char} (p : Nat)
    (hbr : bracketFrom cs = some (blob, tl)) :
    findIterS ('\n' :: cs) p 0
      = ⟨p, p + blob.length + 4, blob⟩ :: findIterS cs (p + 1) (blob.length + 3) := by
  rw [findIterS_cons_zero, if_pos rfl, hbr]

theorem findIterS_nl_none {cs : List Char} (p : Nat) (hbr : bracketFrom cs = none) :
    findIterS ('\n' :: cs) p 0 = findIterS cs (p + 1) 0 := by
  rw [findIterS_cons_zero, if_pos rfl, hbr]

theorem findIterS_other {c : Char} {cs : List Char} (p : Nat) (hc : ¬ c = '\n') :
    findIterS (c :: cs) p 0 = findIterS cs (p + 1) 0 := by
  rw [findIterS_cons_zero, if_neg hc]

theorem length_of_drop_eq {txt l : List Char} {q : Nat}
    (h : txt.drop q = l) (hne : l ≠ []) : txt.length = q + l.length := by
  have h1 : txt.length - q = l.length := by rw [← List.length_drop, h]
  have h2 : 0 < l.length := List.length_pos.2 hne
  omega

/-- Every match produced by the scanning loop really sits in the text: at
`mend - (blob.length + 3)` the text reads `[blob] ` and the match is inside
bounds, one position after the `\n` at `mstart`. -/
theorem findIterS_sound (txt : List Char) :
    ∀ (cs : List Char) (p skip : Nat), txt.drop p = cs →
      ∀ m ∈ findIterS cs p skip,
        txt.drop (m.mend - (m.blob.length + 3))
            = '[' :: (m.blob ++ ']' :: ' ' :: txt.drop m.mend)
          ∧ m.blob.length + 3 ≤ m.mend ∧ m.mend ≤ txt.length
          ∧ m.mstart + 1 = m.mend - (m.blob.length + 3) := by
  intro cs
  induction cs with
  | nil => intro p skip h m hm; simp [findIterS] at hm
  | cons c cs ih =>
    intro p skip h m hm
    have hdrop1 : txt.drop (p + 1) = cs := drop_of_drop_cons h
    match skip with
    | skip + 1 =>
      rw [findIterS_cons_succ] at hm
      exact ih (p + 1) skip hdrop1 m hm
    | 0 =>
      by_cases hc : c = '\n'
      · subst hc
        cases hbr : bracketFrom cs with
        | none =>
          rw [findIterS_nl_none p hbr] at hm
          exact ih (p + 1) 0 hdrop1 m hm
        | some bt =>
          obtain ⟨blob, tl⟩ := bt
          rw [findIterS_nl_some p hbr] at hm
          rcases List.mem_cons.1 hm with hm | hm
          · subst hm
            obtain ⟨hshape, _, _⟩ := bracketFrom_eq_some hbr
            rw [hshape] at hdrop1
            have hstart : p + blob.length + 4 - (blob.length + 3) = p + 1 := by omega
            have hmendtl : txt.drop (p + blob.length + 4) = tl := by
              have : p + blob.length + 4 = (p + 1) + (blob.length + 3) := by omega
              rw [this, ← List.drop_drop, hdrop1]
              have h2 : blob.length + 3 = (1 : Nat) + (blob.length + 2) := by omega
              rw [h2, ← List.drop_drop, List.drop_one]
              show (blob ++ ']' :: ' ' :: tl).drop (blob.length + 2) = tl
              rw [drop_append_len blob (']' :: ' ' :: tl) 2]
              rfl
            have hlen0 := length_of_drop_eq hdrop1 (by simp)
            have hlen : txt.length = p + 1 + (blob.length + 3 + tl.length) := by
              simp only [List.length_cons, List.length_append] at hlen0
              omega
            refine ⟨?_, ?_, ?_, ?_⟩
            · show txt.drop (p + blob.length + 4 - (blob.length + 3))
                = '[' :: (blob ++ ']' :: ' ' :: txt.drop (p + blob.length + 4))
              rw [hstart, hmendtl, hdrop1]
            · show blob.length + 3 ≤ p + blob.length + 4
              omega
            · show p + blob.length + 4 ≤ txt.length
              omega
            · show p + 1 = p + blob.length + 4 - (blob.length + 3)
              omega
          · exact ih (p + 1) (blob.length + 3) hdrop1 m hm
      · rw [findIterS_other p hc] at hm
        exact ih (p + 1) 0 hdrop1 m hm

/-- Top-level version of `findIterS_sound` for `findIter`. -/
theorem findIter_sound (txt : List Char) :
    ∀ m ∈ findIter txt,
      txt.drop (m.mend - (m.blob.length + 3))
          = '[' :: (m.blob ++ ']' :: ' ' :: txt.drop m.mend)
        ∧ m.blob.length + 3 ≤ m.mend ∧ m.mend ≤ txt.length
        ∧ m.mstart ≤ m.mend - (m.blob.length + 3) := by
  intro m hm
  unfold findIter at hm
  cases hbr : bracketFrom txt with
  | none =>
    rw [hbr] at hm
    obtain ⟨h1, h2, h3, h4⟩ := findIterS_sound txt txt 0 0 (List.drop_zero txt) m hm
    exact ⟨h1, h2, h3, by omega⟩
  | some bt =>
    obtain ⟨blob, tl⟩ := bt
    rw [hbr] at hm
    rcases List.mem_cons.1 hm with hm | hm
    · subst hm
      obtain ⟨hshape, _, _⟩ := bracketFrom_eq_some hbr
      have hstart : blob.length + 3 - (blob.length + 3) = 0 := by omega
      have hmendtl : txt.drop (blob.length + 3) = tl := by
        conv_lhs => rw [show txt = '[' :: (blob ++ ']' :: ' ' :: tl) from hshape]
        have h2 : blob.length + 3 = (1 : Nat) + (blob.length + 2) := by omega
        rw [h2, ← List.drop_drop, List.drop_one]
        show (blob ++ ']' :: ' ' :: tl).drop (blob.length + 2) = tl
        rw [drop_append_len blob (']' :: ' ' :: tl) 2]
        rfl
      have hlen : txt.length = blob.length + 3 + tl.length := by
        rw [hshape]; simp; omega
      refine ⟨?_, ?_, ?_, ?_⟩
      · show txt.drop (blob.length + 3 - (blob.length + 3))
          = '[' :: (blob ++ ']' :: ' ' :: txt.drop (blob.length + 3))
        rw [hstart, hmendtl, List.drop_zero, hshape]
      · show blob.length + 3 ≤ blob.length + 3
        omega
      · show blob.length + 3 ≤ txt.length
        omega
      · show (0 : Nat) ≤ blob.length + 3 - (blob.length + 3)
        omega
    · obtain ⟨h1, h2, h3, h4⟩ := findIterS_sound txt txt 0 (blob.length + 3) (List.drop_zero txt) m hm
      exact ⟨h1, h2, h3, by omega⟩

theorem findIterS_bounds (cs : List Char) :
    ∀ (p skip : Nat), ∀ m ∈ findIterS cs p skip, p + skip ≤ m.mstart ∧ m.mstart < m.mend := by
  induction cs with
  | nil => intro p skip m hm; simp [findIterS] at hm
  | cons c cs ih =>
    intro p skip m hm
    match skip with
    | skip + 1 =>
      rw [findIterS_cons_succ] at hm
      have := ih (p + 1) skip m hm
      omega
    | 0 =>
      by_cases hc : c = '\n'
      · subst hc
        cases hbr : bracketFrom cs with
        | none =>
          rw [findIterS_nl_none p hbr] at hm
          have := ih (p + 1) 0 m hm
          omega
        | some bt =>
          obtain ⟨blob, tl⟩ := bt
          rw [findIterS_nl_some p hbr] at hm
          rcases List.mem_cons.1 hm with hm | hm
          · subst hm
            constructor
            · show p + 0 ≤ p; omega
            · show p < p + blob.length + 4; omega
          · have := ih (p + 1) (blob.length + 3) m hm
            omega
      · rw [findIterS_other p hc] at hm
        have := ih (p + 1) 0 m hm
        omega

theorem findIterS_pairwise (cs : List Char) :
    ∀ (p skip : Nat),
      List.Pairwise (fun a b => a.mend ≤ b.mstart) (findIterS cs p skip) := by
  induction cs with
  | nil => intro p skip; simp [findIterS]
  | cons c cs ih =>
    intro p skip
    match skip with
    | skip + 1 => rw [findIterS_cons_succ]; exact ih (p + 1) skip
    | 0 =>
      by_cases hc : c = '\n'
      · subst hc
        cases hbr : bracketFrom cs with
        | none => rw [findIterS_nl_none p hbr]; exact ih (p + 1) 0
        | some bt =>
          obtain ⟨blob, tl⟩ := bt
          rw [findIterS_nl_some p hbr]
          refine List.Pairwise.cons ?_ (ih (p + 1) (blob.length + 3))
          intro b hb
          have := (findIterS_bounds cs (p + 1) (blob.length + 3) b hb).1
          show p + blob.length + 4 ≤ b.mstart
          omega
      · rw [findIterS_other p hc]; exact ih (p + 1) 0

theorem findIter_pairwise (txt : List Char) :
    List.Pairwise (fun a b => a.mend ≤ b.mstart) (findIter txt) := by
  unfold findIter
  cases hbr : bracketFrom txt with
  | none => exact findIterS_pairwise txt 0 0
  | some bt =>
    obtain ⟨blob, tl⟩ := bt
    refine List.Pairwise.cons ?_ (findIterS_pairwise txt 0 (blob.length + 3))
    intro b hb
    have := (findIterS_bounds txt 0 (blob.length + 3) b hb).1
    show blob.length + 3 ≤ b.mstart
    omega

/-! ### Lemmas about resolved markers -/

theorem mem_resolvedOf {oracle : List Char → Option Nat} {ms : List MatchInfo}
    {d : Nat} {m : MatchInfo} :
    (d, m) ∈ resolvedOf oracle ms ↔ m ∈ ms ∧ oracle m.blob = some d := by
  simp only [resolvedOf, List.mem_filterMap, Option.map_eq_some']
  constructor
  · rintro ⟨a, ha, d', hd', heq⟩
    obtain ⟨rfl, rfl⟩ : d' = d ∧ a = m := by
      constructor <;> [exact congrArg Prod.fst heq; exact congrArg Prod.snd heq]
    exact ⟨ha, hd'⟩
  · rintro ⟨hm, hd⟩
    exact ⟨m, hm, d, hd, rfl⟩

theorem resolvedOf_cons_none {oracle : List Char → Option Nat} {m : MatchInfo}
    (ms : List MatchInfo) (h : oracle m.blob = none) :
    resolvedOf oracle (m :: ms) = resolvedOf oracle ms := by
  simp [resolvedOf, List.filterMap_cons, h]

theorem resolvedOf_cons_some {oracle : List Char → Option Nat} {m : MatchInfo} {d : Nat}
    (ms : List MatchInfo) (h : oracle m.blob = some d) :
    resolvedOf oracle (m :: ms) = (d, m) :: resolvedOf oracle ms := by
  simp [resolvedOf, List.filterMap_cons, h]

theorem resolvedOf_append (oracle : List Char → Option Nat) (A B : List MatchInfo) :
    resolvedOf oracle (A ++ B) = resolvedOf oracle A ++ resolvedOf oracle B := by
  simp [resolvedOf, List.filterMap_append]

theorem resolvedOf_eq_nil {oracle : List Char → Option Nat} {ms : List MatchInfo}
    (h : ∀ m ∈ ms, oracle m.blob = none) : resolvedOf oracle ms = [] := by
  induction ms with
  | nil => rfl
  | cons m ms ih =>
    rw [resolvedOf_cons_none ms (h m (by simp))]
    exact ih (fun x hx => h x (by simp [hx]))

theorem resolvedOf_pairwise {oracle : List Char → Option Nat} {ms : List MatchInfo}
    (h : List.Pairwise (fun a b => a.mend ≤ b.mstart) ms) :
    List.Pairwise (fun a b : Nat × MatchInfo => a.2.mend ≤ b.2.mstart)
      (resolvedOf oracle ms) := by
  induction ms with
  | nil => simp [resolvedOf]
  | cons m ms ih =>
    rcases List.pairwise_cons.1 h with ⟨hrel, htail⟩
    cases hres : oracle m.blob with
    | none => rw [resolvedOf_cons_none ms hres]; exact ih htail
    | some d =>
      rw [resolvedOf_cons_some ms hres]
      refine List.Pairwise.cons ?_ (ih htail)
      rintro ⟨d', m'⟩ hb
      exact hrel m' (mem_resolvedOf.1 hb).1

/-! ### Lemmas about `entriesOf` -/

theorem entriesOf_map_date (txt : List Char) (rs : List (Nat × MatchInfo)) :
    (entriesOf txt rs).map Entry.date = rs.map Prod.fst := by
  induction rs with
  | nil => rfl
  | cons dm rest ih =>
    obtain ⟨d, m⟩ := dm
    simp [entriesOf, ih]

theorem entriesOf_mem_concat (txt : List Char) :
    ∀ (ra : List (Nat × MatchInfo)) (r : Nat × MatchInfo) (rest : List (Nat × MatchInfo)),
      ({ date := r.1, text := sliceD txt r.2.mend (headStart txt rest) } : Entry)
        ∈ entriesOf txt (ra ++ r :: rest) := by
  intro ra
  induction ra with
  | nil =>
    intro r rest
    obtain ⟨d, m⟩ := r
    simp [entriesOf]
  | cons x ra ih =>
    intro r rest
    obtain ⟨d, m⟩ := x
    rw [List.cons_append]
    exact List.mem_cons_of_mem _ (ih r rest)

/-! ### Slice algebra -/

theorem sliceD_split (txt : List Char) {a c b : Nat} (h1 : a ≤ c) (h2 : c ≤ b) :
    sliceD txt a b = sliceD txt a c ++ sliceD txt c b := by
  unfold sliceD
  have hb : b - a = (c - a) + (b - c) := by omega
  have hd : (txt.drop a).drop (c - a) = txt.drop c := by
    rw [List.drop_drop]
    congr 1
    omega
  rw [hb, List.take_add, hd]

theorem sliceD_isInfix (txt : List Char) {a c d b : Nat}
    (h1 : a ≤ c) (h2 : c ≤ d) (h3 : d ≤ b) :
    List.IsInfix (sliceD txt c d) (sliceD txt a b) := by
  rw [sliceD_split txt h1 (Nat.le_trans h2 h3), sliceD_split txt h2 h3]
  exact ⟨sliceD txt a c, sliceD txt d b, by rw [List.append_assoc]⟩

theorem sliceD_frag {txt : List Char} {m : MatchInfo}
    (hshape : txt.drop (m.mend - (m.blob.length + 3))
      = '[' :: (m.blob ++ ']' :: ' ' :: txt.drop m.mend))
    (hle : m.blob.length + 3 ≤ m.mend) :
    sliceD txt (m.mend - (m.blob.length + 3)) m.mend = '[' :: (m.blob ++ [']', ' ']) := by
  unfold sliceD
  rw [hshape]
  have harith : m.mend - (m.mend - (m.blob.length + 3)) = m.blob.length + 3 := by omega
  rw [harith]
  have hsplit : '[' :: (m.blob ++ ']' :: ' ' :: txt.drop m.mend)
      = ('[' :: (m.blob ++ [']', ' '])) ++ txt.drop m.mend := by simp
  rw [hsplit]
  have hlen : ('[' :: (m.blob ++ [']', ' '])).length = m.blob.length + 3 := by
    simp
  rw [← hlen, take_append_len]

theorem findIter_bounds (txt : List Char) : ∀ m ∈ findIter txt, m.mstart < m.mend := by
  intro m hm
  unfold findIter at hm
  cases hbr : bracketFrom txt with
  | none =>
    rw [hbr] at hm
    exact (findIterS_bounds txt 0 0 m hm).2
  | some bt =>
    obtain ⟨blob, tl⟩ := bt
    rw [hbr] at hm
    rcases List.mem_cons.1 hm with hm | hm
    · subst hm
      show (0 : Nat) < blob.length + 3
      omega
    · exact (findIterS_bounds txt 0 (blob.length + 3) m hm).2

theorem entriesOf_mem {txt : List Char} :
    ∀ {rs : List (Nat × MatchInfo)} {ent : Entry}, ent ∈ entriesOf txt rs →
      ∃ ra r rest, rs = ra ++ r :: rest
        ∧ ent = { date := r.1, text := sliceD txt r.2.mend (headStart txt rest) } := by
  intro rs
  induction rs with
  | nil => intro ent h; simp [entriesOf] at h
  | cons dm rest ih =>
    intro ent h
    obtain ⟨d0, m0⟩ := dm
    simp only [entriesOf] at h
    rcases List.mem_cons.1 h with h | h
    · exact ⟨[], (d0, m0), rest, rfl, h⟩
    · obtain ⟨ra, r, rest', heq, hent⟩ := ih h
      exact ⟨(d0, m0) :: ra, r, rest', by rw [heq]; rfl, hent⟩

/-! ### Claim C3: failed fragments are body text, not boundaries -/

/-- C3: for every input text, a bracketed fragment whose date resolution
fails never starts an entry (the parsed dates are exactly those of the
resolving matches, in order); when no bracketed fragment resolves, the parser
returns the empty sequence (and, being a total function, raises no error);
and a failed fragment occurring after some resolved marker ends up inside an
entry's body text (the bracketed fragment `[blob] ` is an infix of one of the
parsed entries' texts). -/
theorem claim3_failed_fragments (oracle : List Char → Option Nat) (txt : List Char) :
    ((journalParse oracle txt).map Entry.date = (resolvedMarkers oracle txt).map Prod.fst)
  ∧ ((∀ m ∈ findIter txt, oracle m.blob = none) → journalParse oracle txt = [])
  ∧ (∀ m A B, findIter txt = A ++ m :: B → oracle m.blob = none →
      resolvedOf oracle A ≠ [] →
      ∃ ent ∈ journalParse oracle txt,
        List.IsInfix ('[' :: (m.blob ++ [']', ' '])) ent.text) := by
  refine ⟨?_, ?_, ?_⟩
  · rw [journalParse_charn]
    exact entriesOf_map_date txt _
  · intro h
    rw [journalParse_charn]
    unfold resolvedMarkers
    rw [resolvedOf_eq_nil h]
    rfl
  · intro m A B hsplit hfail hA
    have hr : resolvedMarkers oracle txt = resolvedOf oracle A ++ resolvedOf oracle B := by
      unfold resolvedMarkers
      rw [hsplit, resolvedOf_append, resolvedOf_cons_none _ hfail]
    obtain ⟨ra, r, hra⟩ : ∃ ra r, resolvedOf oracle A = ra ++ [r] := by
      rcases List.eq_nil_or_concat (resolvedOf oracle A) with h | ⟨ra, r, h⟩
      · exact absurd h hA
      · exact ⟨ra, r, by rw [h, List.concat_eq_append]⟩
    have hmem : m ∈ findIter txt := by
      rw [hsplit]
      exact List.mem_append_right A (List.mem_cons_self m B)
    obtain ⟨hshape, hle, hmendlen, hms⟩ := findIter_sound txt m hmem
    have hrA : r ∈ resolvedOf oracle A := by rw [hra]; simp
    have hr2A : r.2 ∈ A := by
      obtain ⟨rd, rm⟩ := r
      exact (mem_resolvedOf.1 hrA).1
    have hpw := findIter_pairwise txt
    rw [hsplit] at hpw
    obtain ⟨hpwA, hpwMB, hcross⟩ := List.pairwise_append.1 hpw
    have hrm : r.2.mend ≤ m.mstart := hcross r.2 hr2A m (List.mem_cons_self m B)
    have hmB : ∀ b ∈ B, m.mend ≤ b.mstart := (List.pairwise_cons.1 hpwMB).1
    have hhs : m.mend ≤ headStart txt (resolvedOf oracle B) := by
      cases hB : resolvedOf oracle B with
      | nil => exact hmendlen
      | cons b bs =>
        obtain ⟨bd, bm⟩ := b
        have hbB : bm ∈ B := by
          have : (bd, bm) ∈ resolvedOf oracle B := by rw [hB]; simp
          exact (mem_resolvedOf.1 this).1
        exact hmB bm hbB
    refine ⟨{ date := r.1, text := sliceD txt r.2.mend (headStart txt (resolvedOf oracle B)) },
      ?_, ?_⟩
    · rw [journalParse_charn, hr, hra, List.append_assoc, List.singleton_append]
      exact entriesOf_mem_concat txt ra r (resolvedOf oracle B)
    · show List.IsInfix ('[' :: (m.blob ++ [']', ' ']))
        (sliceD txt r.2.mend (headStart txt (resolvedOf oracle B)))
      rw [← sliceD_frag hshape hle]
      exact sliceD_isInfix txt (by omega) (by omega) hhs

def oNone : List Char → Option Nat := fun _ => none

def txtW3 : List Char := ('[' :: ('x' :: (']' :: (' ' :: ['y']))))

def txtW3b : List Char :=
  ['[', 'd', '1', ']', ' ', 'A', '\n', '[', 'x', 'x', ']', ' ', 'B']

theorem claim3_witness :
    journalParse oNone txtW3 = []
  ∧ ∃ ent ∈ journalParse oW1 txtW3b,
      List.IsInfix ('[' :: (['x', 'x'] ++ [']', ' '])) ent.text := by
  constructor
  · exact (claim3_failed_fragments oNone txtW3).2.1 (fun m _ => rfl)
  · exact (claim3_failed_fragments oW1 txtW3b).2.2 ⟨6, 12, ['x', 'x']⟩
      [⟨0, 5, ['d', '1']⟩] [] (by decide) (by decide) (by decide)

/-! ### Claim C9: text before the first recognized marker is discarded -/

/-- C9: characters preceding the first recognized date marker appear in no
resulting entry's text: every parsed entry's text is a slice of the input
starting at or after the end of the first recognized marker, and the first
entry's text starts exactly at the end of its own marker.  Leading unmarked
text is therefore silently discarded. -/
theorem claim9_leading_text_discarded (oracle : List Char → Option Nat)
    (txt : List Char) (d : Nat) (m : MatchInfo) (rs : List (Nat × MatchInfo))
    (h : resolvedMarkers oracle txt = (d, m) :: rs) :
    (journalParse oracle txt).head?
        = some { date := d, text := sliceD txt m.mend (headStart txt rs) }
      ∧ ∀ ent ∈ journalParse oracle txt,
          ∃ a b, m.mend ≤ a ∧ ent.text = sliceD txt a b := by
  have hpar : journalParse oracle txt = entriesOf txt ((d, m) :: rs) := by
    rw [journalParse_charn, h]
  have hpw : List.Pairwise (fun a b : Nat × MatchInfo => a.2.mend ≤ b.2.mstart)
      ((d, m) :: rs) := by
    rw [← h]
    exact resolvedOf_pairwise (findIter_pairwise txt)
  have hhead : ∀ b ∈ rs, m.mend ≤ b.2.mstart := by
    intro b hb
    exact (List.pairwise_cons.1 hpw).1 b hb
  constructor
  · rw [hpar]
    rfl
  · intro ent hent
    rw [hpar] at hent
    obtain ⟨ra, r, rest, heq, hentEq⟩ := entriesOf_mem hent
    cases ra with
    | nil =>
      have hr : (d, m) = r := by
        have := congrArg (fun l => l.head?) heq
        simpa using this
      refine ⟨m.mend, headStart txt rest, Nat.le_refl _, ?_⟩
      rw [hentEq, ← hr]
    | cons x ra' =>
      have hrrs : r ∈ rs := by
        have : rs = ra' ++ r :: rest := by
          have := congrArg (fun l => l.tail) heq
          simpa using this
        rw [this]
        exact List.mem_append_right ra' (List.mem_cons_self r rest)
      have hrmem : r ∈ resolvedMarkers oracle txt := by
        rw [h]
        exact List.mem_cons_of_mem _ hrrs
      have hrfind : r.2 ∈ findIter txt := by
        obtain ⟨rd, rm⟩ := r
        exact (mem_resolvedOf.1 hrmem).1
      have hlt : r.2.mstart < r.2.mend := findIter_bounds txt r.2 hrfind
      have hge : m.mend ≤ r.2.mstart := hhead r hrrs
      exact ⟨r.2.mend, headStart txt rest, by omega, by rw [hentEq]⟩

theorem claim9_witness :
    (journalParse oW1 txtW3b).head?
      = some { date := 10, text := sliceD txtW3b 5 (headStart txtW3b []) } := by
  exact (claim9_leading_text_discarded oW1 txtW3b 10 ⟨0, 5, ['d', '1']⟩ []
    (by decide)).1

/-! ### Rendering (editable string) and the round-trip -/

/-- Modelled from the spec: the stored textual form of one entry (spec
section 6, current-format grammar): a `[<date-text>] ` marker followed by the
entry's text written back verbatim.  The date is rendered through a formatter
parameter `fmt` (strftime with the configured time format in the source);
`Entry.__unicode__` lives in the external `Entry` module. -/
def renderEntry (fmt : Nat → List Char) (e : Entry) : List Char :=
  '[' :: (fmt e.date ++ ']' :: ' ' :: e.text)

/-- Python `"\n".join`. -/
def joinNl : List (List Char) → List Char
  | [] => []
  | [t] => t
  | t :: ts => t ++ '\n' :: joinNl ts

/-- `Journal.editable_str` (also `Journal.write`): the entries' rendered
forms joined by a single newline. -/
def editable_str (fmt : Nat → List Char) (entries : List Entry) : List Char :=
  joinNl (entries.map (renderEntry fmt))

/-- Newline-prefixed join: what follows the first rendered entry. -/
def nlJoin : List (List Char) → List Char
  | [] => []
  | t :: ts => '\n' :: (t ++ nlJoin ts)

/-- Whether the text contains a newline immediately followed by `[` (the only
shape that can open a date marker at a positive position). -/
def hasNlLb : List Char → Bool
  | a :: b :: t => (a = '\n' && b = '[') || hasNlLb (b :: t)
  | _ => false

theorem joinNl_cons : ∀ (rs : List (List Char)) (r : List Char),
    joinNl (r :: rs) = r ++ nlJoin rs := by
  intro rs
  induction rs with
  | nil => intro r; simp [joinNl, nlJoin]
  | cons x xs ih =>
    intro r
    show r ++ '\n' :: joinNl (x :: xs) = r ++ nlJoin (x :: xs)
    rw [ih x]
    rfl

theorem nlJoin_head_ne (ts : List (List Char)) : (nlJoin ts).head? ≠ some '[' := by
  cases ts with
  | nil => simp [nlJoin]
  | cons t ts => simp [nlJoin]

theorem bracketFrom_none_of_head {u : List Char} (h : u.head? ≠ some '[') :
    bracketFrom u = none := by
  cases u with
  | nil => rfl
  | cons c rest =>
    rw [bracketFrom_cons, if_neg]
    intro hc
    exact h (by rw [hc]; rfl)

theorem findIterS_skip : ∀ (a rest : List Char) (p : Nat),
    findIterS (a ++ rest) p a.length = findIterS rest (p + a.length) 0 := by
  intro a
  induction a with
  | nil => intro rest p; simp
  | cons x a ih =>
    intro rest p
    show findIterS (x :: (a ++ rest)) p (a.length + 1) = _
    rw [findIterS_cons_succ, ih rest (p + 1)]
    congr 1
    simp
    omega

theorem findIterS_no_match : ∀ (t rest : List Char) (p : Nat),
    hasNlLb t = false →
    (t.getLast? = some '\n' → rest.head? ≠ some '[') →
    findIterS (t ++ rest) p 0 = findIterS rest (p + t.length) 0 := by
  intro t
  induction t with
  | nil => intro rest p _ _; simp
  | cons c t ih =>
    intro rest p hno hj
    cases t with
    | nil =>
      by_cases hc : c = '\n'
      · subst hc
        have hbr : bracketFrom rest = none :=
          bracketFrom_none_of_head (hj rfl)
        rw [List.cons_append, List.nil_append, findIterS_nl_none p hbr]
        simp
      · rw [List.cons_append, List.nil_append, findIterS_other p hc]
        simp
    | cons b t' =>
      have hsplit : ((c = '\n' && b = '[') || hasNlLb (b :: t')) = false := hno
      rw [Bool.or_eq_false_iff] at hsplit
      obtain ⟨hpair, htail⟩ := hsplit
      have hj' : (b :: t').getLast? = some '\n' → rest.head? ≠ some '[' := by
        intro hl
        exact hj (by rwa [List.getLast?_cons_cons])
      by_cases hc : c = '\n'
      · subst hc
        have hb : b ≠ '[' := by
          intro hb
          subst hb
          simp at hpair
        have hbr : bracketFrom ((b :: t') ++ rest) = none :=
          bracketFrom_none_of_head (by simp [hb])
        rw [List.cons_append, findIterS_nl_none p hbr]
        have := ih rest (p + 1) htail hj'
        rw [this]
        congr 1
        simp
        omega
      · rw [List.cons_append, findIterS_other p hc]
        have := ih rest (p + 1) htail hj'
        rw [this]
        congr 1
        simp
        omega

/-- Marker layout of a rendered entry sequence, starting with a newline at
absolute position `q`. -/
def specMarkers (fmt : Nat → List Char) : List Entry → Nat → List MatchInfo
  | [], _ => []
  | e :: es, q =>
    ⟨q, q + (fmt e.date).length + 4, fmt e.date⟩
      :: specMarkers fmt es (q + (fmt e.date).length + 4 + e.text.length)

/-- Marker layout paired with the entries' dates. -/
def specRes (fmt : Nat → List Char) : List Entry → Nat → List (Nat × MatchInfo)
  | [], _ => []
  | e :: es, q =>
    (e.date, ⟨q, q + (fmt e.date).length + 4, fmt e.date⟩)
      :: specRes fmt es (q + (fmt e.date).length + 4 + e.text.length)

/-- Good rendering data for one entry: a date fragment the oracle inverts and
no marker-opening shape inside the text. -/
def wellFormed (fmt : Nat → List Char) (e : Entry) : Prop :=
  fmt e.date ≠ [] ∧ ']' ∉ fmt e.date ∧ hasNlLb e.text = false

theorem renderEntry_assoc (fmt : Nat → List Char) (e : Entry) (R : List Char) :
    renderEntry fmt e ++ R
      = ('[' :: (fmt e.date ++ [']', ' '])) ++ (e.text ++ R) := by
  simp [renderEntry]

theorem bracketFrom_render {fmt : Nat → List Char} {e : Entry} (R : List Char)
    (hw : wellFormed fmt e) :
    bracketFrom (renderEntry fmt e ++ R) = some (fmt e.date, e.text ++ R) := by
  obtain ⟨hne, hna, _⟩ := hw
  have : renderEntry fmt e ++ R = '[' :: (fmt e.date ++ ']' :: ' ' :: (e.text ++ R)) := by
    simp [renderEntry]
  rw [this]
  exact bracketFrom_shape (e.text ++ R) hna hne

theorem findIter_eq_some {txt blob tl : List Char}
    (hbr : bracketFrom txt = some (blob, tl)) :
    findIter txt = ⟨0, blob.length + 3, blob⟩ :: findIterS txt 0 (blob.length + 3) := by
  unfold findIter
  rw [hbr]

theorem findIterS_nlJoin (fmt : Nat → List Char) :
    ∀ (es : List Entry) (p : Nat), (∀ e ∈ es, wellFormed fmt e) →
      findIterS (nlJoin (es.map (renderEntry fmt))) p 0 = specMarkers fmt es p := by
  intro es
  induction es with
  | nil => intro p _; simp [nlJoin, List.map_nil, findIterS, specMarkers]
  | cons e es ih =>
    intro p hw
    have hwe : wellFormed fmt e := hw e (by simp)
    obtain ⟨hne, hna, htx⟩ := hwe
    have hlen : ('[' :: (fmt e.date ++ [']', ' '])).length = (fmt e.date).length + 3 := by
      simp
    have step1 : findIterS (nlJoin ((e :: es).map (renderEntry fmt))) p 0
        = (⟨p, p + (fmt e.date).length + 4, fmt e.date⟩ : MatchInfo)
          :: findIterS (renderEntry fmt e ++ nlJoin (es.map (renderEntry fmt)))
               (p + 1) ((fmt e.date).length + 3) := by
      show findIterS ('\n' :: (renderEntry fmt e ++ nlJoin (es.map (renderEntry fmt)))) p 0
        = _
      rw [findIterS_nl_some p (bracketFrom_render _ (hw e (by simp)))]
    have hpos : p + 1 + ('[' :: (fmt e.date ++ [']', ' '])).length + e.text.length
        = p + (fmt e.date).length + 4 + e.text.length := by
      rw [hlen]
      omega
    have step2 : findIterS (renderEntry fmt e ++ nlJoin (es.map (renderEntry fmt)))
          (p + 1) ((fmt e.date).length + 3)
        = findIterS (nlJoin (es.map (renderEntry fmt)))
            (p + (fmt e.date).length + 4 + e.text.length) 0 := by
      rw [renderEntry_assoc, ← hlen, findIterS_skip,
        findIterS_no_match e.text _ _ htx
          (fun _ => nlJoin_head_ne (es.map (renderEntry fmt))), hpos]
    rw [step1, step2, ih _ (fun x hx => hw x (by simp [hx]))]
    rfl

theorem findIter_editable (fmt : Nat → List Char) (e : Entry) (es : List Entry)
    (hw : ∀ x ∈ e :: es, wellFormed fmt x) :
    findIter (editable_str fmt (e :: es))
      = ⟨0, (fmt e.date).length + 3, fmt e.date⟩
          :: specMarkers fmt es ((fmt e.date).length + 3 + e.text.length) := by
  have hwe := hw e (by simp)
  obtain ⟨hne, hna, htx⟩ := hwe
  have htxt : editable_str fmt (e :: es)
      = renderEntry fmt e ++ nlJoin (es.map (renderEntry fmt)) := by
    unfold editable_str
    rw [List.map_cons, joinNl_cons]
  have hbr := bracketFrom_render (nlJoin (es.map (renderEntry fmt))) (hw e (by simp))
  have hlen : ('[' :: (fmt e.date ++ [']', ' '])).length = (fmt e.date).length + 3 := by
    simp
  rw [htxt, findIter_eq_some hbr]
  congr 1
  have hpos : 0 + ('[' :: (fmt e.date ++ [']', ' '])).length + e.text.length
      = (fmt e.date).length + 3 + e.text.length := by
    rw [hlen]
    omega
  rw [renderEntry_assoc, ← hlen]
  rw [findIterS_skip, findIterS_no_match e.text _ _ htx
    (fun _ => nlJoin_head_ne (es.map (renderEntry fmt)))]
  rw [findIterS_nlJoin fmt es _ (fun x hx => hw x (by simp [hx]))]
  congr 1
  omega

theorem resolvedOf_specMarkers (oracle : List Char → Option Nat)
    (fmt : Nat → List Char) :
    ∀ (es : List Entry) (q : Nat), (∀ e ∈ es, oracle (fmt e.date) = some e.date) →
      resolvedOf oracle (specMarkers fmt es q) = specRes fmt es q := by
  intro es
  induction es with
  | nil => intro q _; rfl
  | cons e es ih =>
    intro q hd
    show resolvedOf oracle (⟨q, q + (fmt e.date).length + 4, fmt e.date⟩
        :: specMarkers fmt es (q + (fmt e.date).length + 4 + e.text.length))
      = specRes fmt (e :: es) q
    rw [resolvedOf_cons_some _ (hd e (by simp))]
    rw [ih _ (fun x hx => hd x (by simp [hx]))]
    rfl

theorem headStart_specRes (fmt : Nat → List Char) (txt : List Char)
    (es : List Entry) (q : Nat) (hnil : es = [] → txt.length = q) :
    headStart txt (specRes fmt es q) = q := by
  cases es with
  | nil => simp [specRes, headStart, hnil rfl]
  | cons e es => rfl

/-- Drop-position bookkeeping below one rendered entry. -/
theorem drops_of_render (fmt : Nat → List Char) (txt : List Char) (e : Entry)
    (R : List Char) (q : Nat) (hdrop : txt.drop q = renderEntry fmt e ++ R) :
    txt.drop (q + ((fmt e.date).length + 3)) = e.text ++ R
  ∧ txt.drop (q + ((fmt e.date).length + 3) + e.text.length) = R
  ∧ txt.length = q + ((fmt e.date).length + 3) + e.text.length + R.length := by
  have hlenA : ('[' :: (fmt e.date ++ [']', ' '])).length = (fmt e.date).length + 3 := by
    simp
  have hA : txt.drop (q + ((fmt e.date).length + 3)) = e.text ++ R := by
    rw [← List.drop_drop, hdrop, renderEntry_assoc, ← hlenA, drop_append_self]
  have hB : txt.drop (q + ((fmt e.date).length + 3) + e.text.length) = R := by
    rw [← List.drop_drop, hA, drop_append_self]
  have hC : txt.length = q + ((fmt e.date).length + 3) + e.text.length + R.length := by
    have h0 := length_of_drop_eq hdrop (by simp [renderEntry])
    simp only [List.length_append, renderEntry, List.length_cons] at h0
    omega
  exact ⟨hA, hB, hC⟩

theorem entriesOf_specRes (fmt : Nat → List Char) (txt : List Char) :
    ∀ (es : List Entry) (q : Nat),
      txt.drop q = nlJoin (es.map (renderEntry fmt)) →
      txt.length = q + (nlJoin (es.map (renderEntry fmt))).length →
      entriesOf txt (specRes fmt es q)
        = es.map (fun e => { date := e.date, text := e.text }) := by
  intro es
  induction es with
  | nil => intro q _ _; rfl
  | cons e es ih =>
    intro q hdrop hlen
    have hdrop1 : txt.drop (q + 1)
        = renderEntry fmt e ++ nlJoin (es.map (renderEntry fmt)) := by
      apply drop_of_drop_cons
      rw [hdrop]
      rfl
    obtain ⟨hA, hB, hC⟩ := drops_of_render fmt txt e _ (q + 1) hdrop1
    have harith : q + 1 + ((fmt e.date).length + 3) = q + (fmt e.date).length + 4 := by
      omega
    rw [harith] at hA
    have harith2 : q + 1 + ((fmt e.date).length + 3) + e.text.length
        = q + (fmt e.date).length + 4 + e.text.length := by omega
    rw [harith2] at hB hC
    have hhs : headStart txt
        (specRes fmt es (q + (fmt e.date).length + 4 + e.text.length))
        = q + (fmt e.date).length + 4 + e.text.length := by
      apply headStart_specRes
      intro hnil
      subst hnil
      simp only [List.map_nil, nlJoin, List.length_nil] at hC
      omega
    have hslice : sliceD txt (q + (fmt e.date).length + 4)
        (q + (fmt e.date).length + 4 + e.text.length) = e.text := by
      unfold sliceD
      rw [hA]
      have : q + (fmt e.date).length + 4 + e.text.length
          - (q + (fmt e.date).length + 4) = e.text.length := by omega
      rw [this, take_append_len]
    have hstep : entriesOf txt (specRes fmt (e :: es) q)
        = { date := e.date,
            text := sliceD txt (q + (fmt e.date).length + 4)
              (headStart txt
                (specRes fmt es (q + (fmt e.date).length + 4 + e.text.length))) }
          :: entriesOf txt (specRes fmt es (q + (fmt e.date).length + 4 + e.text.length)) :=
      rfl
    rw [hstep, hhs, hslice, ih _ hB hC]
    rfl

/-! ### Claim C2: rendering and re-parsing round-trips -/

/-- C2: round-trip.  For every journal in the current (bracketed-date) format
— i.e. every entry's formatted date is a nonempty, `]`-free fragment that the
date oracle resolves back to the same date, and no entry text contains a
newline immediately followed by `[` — parsing the text rendered by
`editable_str` (entries joined by a single newline) yields an entry sequence
equal to the journal's entries under structural `(date, text)` equality. -/
theorem claim2_roundtrip (oracle : List Char → Option Nat) (fmt : Nat → List Char)
    (entries : List Entry)
    (hdates : ∀ e ∈ entries, oracle (fmt e.date) = some e.date)
    (hw : ∀ e ∈ entries, wellFormed fmt e) :
    (journalParse oracle (editable_str fmt entries)).map (fun e => (e.date, e.text))
      = entries.map (fun e => (e.date, e.text)) := by
  cases entries with
  | nil => rfl
  | cons e es =>
    rw [journalParse_charn]
    have hres : resolvedMarkers oracle (editable_str fmt (e :: es))
        = (e.date, ⟨0, (fmt e.date).length + 3, fmt e.date⟩)
          :: specRes fmt es ((fmt e.date).length + 3 + e.text.length) := by
      unfold resolvedMarkers
      rw [findIter_editable fmt e es hw]
      rw [resolvedOf_cons_some _ (hdates e (by simp))]
      rw [resolvedOf_specMarkers oracle fmt es _ (fun x hx => hdates x (by simp [hx]))]
    rw [hres]
    have htxt : editable_str fmt (e :: es)
        = renderEntry fmt e ++ nlJoin (es.map (renderEntry fmt)) := by
      unfold editable_str
      rw [List.map_cons, joinNl_cons]
    obtain ⟨hA, hB, hC⟩ := drops_of_render fmt (editable_str fmt (e :: es)) e _ 0
      (by rw [List.drop_zero, htxt])
    rw [Nat.zero_add] at hA hB hC
    have hhs : headStart (editable_str fmt (e :: es))
        (specRes fmt es ((fmt e.date).length + 3 + e.text.length))
        = (fmt e.date).length + 3 + e.text.length := by
      apply headStart_specRes
      intro hnil
      subst hnil
      simp only [List.map_nil, nlJoin, List.length_nil] at hC
      omega
    have hslice : sliceD (editable_str fmt (e :: es)) ((fmt e.date).length + 3)
        ((fmt e.date).length + 3 + e.text.length) = e.text := by
      unfold sliceD
      rw [hA]
      have : (fmt e.date).length + 3 + e.text.length - ((fmt e.date).length + 3)
          = e.text.length := by omega
      rw [this, take_append_len]
    have hstep : entriesOf (editable_str fmt (e :: es))
          ((e.date, ⟨0, (fmt e.date).length + 3, fmt e.date⟩)
            :: specRes fmt es ((fmt e.date).length + 3 + e.text.length))
        = { date := e.date,
            text := sliceD (editable_str fmt (e :: es)) ((fmt e.date).length + 3)
              (headStart (editable_str fmt (e :: es))
                (specRes fmt es ((fmt e.date).length + 3 + e.text.length))) }
          :: entriesOf (editable_str fmt (e :: es))
              (specRes fmt es ((fmt e.date).length + 3 + e.text.length)) :=
      rfl
    rw [hstep, hhs, hslice, entriesOf_specRes fmt _ es _ hB hC]
    simp

def fmtW2 : Nat → List Char := fun d => if d = 10 then ['d', '1'] else ['d', '2']

def entriesW2 : List Entry :=
  [{ date := 10, text := ['A'] }, { date := 20, text := ['B', ']', 'x'] }]

theorem claim2_witness :
    (journalParse oW1 (editable_str fmtW2 entriesW2)).map (fun e => (e.date, e.text))
      = entriesW2.map (fun e => (e.date, e.text)) := by
  exact claim2_roundtrip oW1 fmtW2 entriesW2 (by decide)
    (by intro e he; fin_cases he <;> exact ⟨by decide, by decide, by decide⟩)

/-! ### `Journal.filter` -/

/-- Modelled from the spec: the derived tag set of an entry as seen by the
filtering comparison (spec 3 and 4.3) — the distinct tags of the entry,
lowercased, since tag comparison during filtering is case-insensitive.  The
extraction itself lives in the external `Entry` module; the raw occurrences
are carried in the `tags` field. -/
def entryTagSet (e : Entry) : List (List Char) :=
  (e.tags.map lcStr).dedup

/-- `set.issubset`. -/
def issubset (s t : List (List Char)) : Bool :=
  s.all (fun x => decide (x ∈ t))

/-- Python truthiness of `set.intersection`: the intersection is nonempty. -/
def interNonempty (s t : List (List Char)) : Bool :=
  !(s.filter (fun x => decide (x ∈ t))).isEmpty

/-- `time.parse` applied to an optional string: `None` stays `None`. -/
def optParse (f : List Char → Option Nat) : Option (List Char) → Option Nat
  | none => none
  | some s => f s

/-- `Journal.filter`.  `oracle b s` models `time.parse(s, inclusive=b)`;
`start_date` and `end_date` are the raw arguments (`none` is Python `None`).
Returns the filtered entry list together with the recorded lowercased
`search_tags`. -/
def journalFilter (oracle : Bool → List Char → Option Nat)
    (tags : List (List Char)) (start_date end_date : Option (List Char))
    (starred strict : Bool) (entries : List Entry) :
    List Entry × List (List Char) :=
  let search_tags := (tags.map lcStr).dedup
  let end_d := optParse (oracle true) end_date
  let start_d := optParse (oracle false) start_date
  let tagged := fun (etags : List (List Char)) =>
    if strict then issubset search_tags etags else interNonempty search_tags etags
  let result := entries.filter (fun entry =>
    (tags.isEmpty || tagged (entryTagSet entry))
    && (!starred || entry.starred)
    && (match start_d with | none => true | some sd => decide (sd ≤ entry.date))
    && (match end_d with | none => true | some ed => decide (entry.date ≤ ed)))
  (result, search_tags)

instance decForallOptSome (o : Option Nat) (P : Nat → Prop) [DecidablePred P] :
    Decidable (∀ x, o = some x → P x) :=
  match o with
  | none => isTrue (fun _x h => nomatch h)
  | some v =>
    decidable_of_iff (P v)
      ⟨fun h _x hx => Option.some.inj hx ▸ h, fun h => h v rfl⟩

theorem issubset_iff (tags etags : List (List Char)) :
    issubset ((tags.map lcStr).dedup) etags = true ↔ ∀ t ∈ tags, lcStr t ∈ etags := by
  simp only [issubset, List.all_eq_true, List.mem_dedup, List.mem_map,
    decide_eq_true_eq]
  constructor
  · intro h t ht
    exact h (lcStr t) ⟨t, ht, rfl⟩
  · rintro h x ⟨t, ht, rfl⟩
    exact h t ht

theorem inter_iff (tags etags : List (List Char)) :
    interNonempty ((tags.map lcStr).dedup) etags = true ↔ ∃ t ∈ tags, lcStr t ∈ etags := by
  unfold interNonempty
  rw [Bool.not_eq_true']
  constructor
  · intro h
    have hne : (((tags.map lcStr).dedup).filter (fun x => decide (x ∈ etags))) ≠ [] := by
      intro hEq
      rw [hEq] at h
      simp at h
    have hnot : ¬ ∀ a ∈ (tags.map lcStr).dedup, ¬ (decide (a ∈ etags) = true) := by
      intro hall
      exact hne (List.filter_eq_nil_iff.2 hall)
    push_neg at hnot
    obtain ⟨x, hx, hmem⟩ := hnot
    simp only [List.mem_dedup, List.mem_map] at hx
    obtain ⟨t, ht, rfl⟩ := hx
    exact ⟨t, ht, by simpa using hmem⟩
  · rintro ⟨t, ht, hmem⟩
    have hfm : lcStr t ∈ ((tags.map lcStr).dedup).filter (fun x => decide (x ∈ etags)) := by
      rw [List.mem_filter]
      exact ⟨by simp only [List.mem_dedup, List.mem_map]; exact ⟨t, ht, rfl⟩, by simpa⟩
    cases hfl : ((tags.map lcStr).dedup).filter (fun x => decide (x ∈ etags)) with
    | nil => rw [hfl] at hfm; cases hfm
    | cons a l => rfl

theorem tagCond_iff (tags etags : List (List Char)) (strict : Bool) :
    ((tags.isEmpty
        || (if strict then issubset ((tags.map lcStr).dedup) etags
            else interNonempty ((tags.map lcStr).dedup) etags)) = true)
      ↔ (tags = []
          ∨ (if strict = true then ∀ t ∈ tags, lcStr t ∈ etags
             else ∃ t ∈ tags, lcStr t ∈ etags)) := by
  cases strict with
  | true =>
    rw [if_pos rfl, if_pos rfl, Bool.or_eq_true, issubset_iff]
    exact or_congr List.isEmpty_iff Iff.rfl
  | false =>
    rw [if_neg (by simp), if_neg (by simp), Bool.or_eq_true, inter_iff]
    exact or_congr List.isEmpty_iff Iff.rfl

theorem starredCond_iff (starred b : Bool) :
    ((!starred || b) = true) ↔ (starred = true → b = true) := by
  cases starred <;> simp

theorem dateCond_iff (o : Option Nat) (P : Nat → Prop) [DecidablePred P] :
    ((match o with | none => true | some v => decide (P v)) = true)
      ↔ ∀ v, o = some v → P v := by
  cases o with
  | none => simp
  | some v =>
    simp only [decide_eq_true_eq]
    exact ⟨fun h x hx => Option.some.inj hx ▸ h, fun h => h v rfl⟩

/-! ### Claim C4: the filter keeps exactly the matching entries -/

/-- C4: `Journal.filter` keeps exactly the entries satisfying all of: the tag
constraint (all requested tags present when strict, at least one when not,
compared case-insensitively, vacuously true when no tags are requested),
starredness when requested, date at least the resolved start bound when that
resolves, and date at most the end bound, which is resolved with the
inclusive flag. -/
theorem claim4_filter (oracle : Bool → List Char → Option Nat)
    (tags : List (List Char)) (start_date end_date : Option (List Char))
    (starred strict : Bool) (entries : List Entry) :
    (journalFilter oracle tags start_date end_date starred strict entries).1
      = entries.filter (fun e => decide (
          (tags = []
            ∨ (if strict = true then ∀ t ∈ tags, lcStr t ∈ entryTagSet e
               else ∃ t ∈ tags, lcStr t ∈ entryTagSet e))
          ∧ (starred = true → e.starred = true)
          ∧ (∀ sd, optParse (oracle false) start_date = some sd → sd ≤ e.date)
          ∧ (∀ ed, optParse (oracle true) end_date = some ed → e.date ≤ ed))) := by
  unfold journalFilter
  apply List.filter_congr
  intro e _
  have hbool : ∀ a b : Bool, (a = true ↔ b = true) → a = b := by decide
  apply hbool
  rw [decide_eq_true_eq]
  rw [Bool.and_eq_true, Bool.and_eq_true, Bool.and_eq_true]
  rw [tagCond_iff tags (entryTagSet e) strict, starredCond_iff]
  rw [dateCond_iff (optParse (oracle false) start_date) (fun sd => sd ≤ e.date),
    dateCond_iff (optParse (oracle true) end_date) (fun ed => e.date ≤ ed)]
  tauto

def entriesW4 : List Entry :=
  [{ date := 5, text := ['A'], tags := [['@', 'a'], ['@', 'B']] },
   { date := 9, text := ['B'], starred := true, tags := [['@', 'b']] }]

def oW4 : Bool → List Char → Option Nat := fun inclusive s =>
  if s = ['j', 'a', 'n'] then (if inclusive then some 8 else some 1) else none

theorem claim4_witness :
    (journalFilter oW4 [['@', 'b']] none (some ['j', 'a', 'n']) false false entriesW4).1
      = entriesW4.filter (fun e => decide (
          (([['@', 'b']] : List (List Char)) = []
            ∨ (if false = true then ∀ t ∈ [[('@' : Char), 'b']], lcStr t ∈ entryTagSet e
               else ∃ t ∈ [[('@' : Char), 'b']], lcStr t ∈ entryTagSet e))
          ∧ (false = true → e.starred = true)
          ∧ (∀ sd, optParse (oW4 false) none = some sd → sd ≤ e.date)
          ∧ (∀ ed, optParse (oW4 true) (some ['j', 'a', 'n']) = some ed → e.date ≤ ed))) :=
  claim4_filter oW4 [['@', 'b']] none (some ['j', 'a', 'n']) false false entriesW4

/-! ### `Journal.tags` -/

/-- Lexicographic less-or-equal on char lists — Python string `<=` (code
point order). -/
def llexLe : List Char → List Char → Bool
  | [], _ => true
  | _ :: _, [] => false
  | a :: as, b :: bs => if a < b then true else if a = b then llexLe as bs else false

/-- Python tuple `<=` on `(count, name)` pairs. -/
def pairLeB (p q : Nat × List Char) : Bool :=
  if p.1 < q.1 then true else if p.1 = q.1 then llexLe p.2 q.2 else false

def pairLe (p q : Nat × List Char) : Prop := pairLeB p q = true

instance : DecidableRel pairLe :=
  fun p q => inferInstanceAs (Decidable (pairLeB p q = true))

theorem llexLe_total : ∀ a b : List Char, llexLe a b = true ∨ llexLe b a = true := by
  intro a
  induction a with
  | nil => intro b; left; rfl
  | cons x xs ih =>
    intro b
    cases b with
    | nil => right; rfl
    | cons y ys =>
      rcases lt_trichotomy x y with h | h | h
      · left
        simp [llexLe, h]
      · subst h
        rcases ih ys with h2 | h2
        · left; simp [llexLe, h2]
        · right; simp [llexLe, h2]
      · right
        simp [llexLe, h]

theorem llexLe_trans : ∀ a b c : List Char,
    llexLe a b = true → llexLe b c = true → llexLe a c = true := by
  intro a
  induction a with
  | nil => intro b c _ _; rfl
  | cons x xs ih =>
    intro b c hab hbc
    cases b with
    | nil => simp [llexLe] at hab
    | cons y ys =>
      cases c with
      | nil => simp [llexLe] at hbc
      | cons z zs =>
        simp only [llexLe] at hab hbc ⊢
        by_cases hxy : x < y
        · by_cases hyz : y < z
          · rw [if_pos (lt_trans hxy hyz)]
          · rw [if_neg hyz] at hbc
            by_cases hyz2 : y = z
            · subst hyz2
              rw [if_pos hxy]
            · rw [if_neg hyz2] at hbc
              cases hbc
        · rw [if_neg hxy] at hab
          by_cases hxy2 : x = y
          · subst hxy2
            rw [if_pos rfl] at hab
            by_cases hxz : x < z
            · rw [if_pos hxz]
            · rw [if_neg hxz] at hbc ⊢
              by_cases hxz2 : x = z
              · rw [if_pos hxz2] at hbc ⊢
                exact ih ys zs hab hbc
              · rw [if_neg hxz2] at hbc
                cases hbc
          · rw [if_neg hxy2] at hab
            cases hab

instance : IsTotal (Nat × List Char) pairLe := by
  constructor
  rintro ⟨c1, t1⟩ ⟨c2, t2⟩
  unfold pairLe pairLeB
  rcases lt_trichotomy c1 c2 with h | h | h
  · left; simp [h]
  · subst h
    rcases llexLe_total t1 t2 with h2 | h2
    · left; simp [h2]
    · right; simp [h2]
  · right; simp [h]

instance : IsTrans (Nat × List Char) pairLe := by
  constructor
  rintro ⟨c1, t1⟩ ⟨c2, t2⟩ ⟨c3, t3⟩ h12 h23
  unfold pairLe pairLeB at h12 h23 ⊢
  simp only at h12 h23 ⊢
  by_cases h1 : c1 < c2
  · by_cases h2 : c2 < c3
    · rw [if_pos (lt_trans h1 h2)]
    · rw [if_neg h2] at h23
      by_cases h3 : c2 = c3
      · subst h3; rw [if_pos h1]
      · rw [if_neg h3] at h23; cases h23
  · rw [if_neg h1] at h12
    by_cases h1e : c1 = c2
    · subst h1e
      rw [if_pos rfl] at h12
      by_cases h2 : c1 < c3
      · rw [if_pos h2]
      · rw [if_neg h2] at h23 ⊢
        by_cases h3 : c1 = c3
        · rw [if_pos h3] at h23 ⊢
          exact llexLe_trans t1 t2 t3 h12 h23
        · rw [if_neg h3] at h23; cases h23
    · rw [if_neg h1e] at h12; cases h12

/-- `Journal.tags`: one flat list with the distinct tags of each entry, then
the set of `(count, tag)` pairs, returned sorted. -/
def journalTags (entries : List Entry) : List (Nat × List Char) :=
  let tags := entries.flatMap (fun entry => entry.tags.dedup)
  let tag_counts := (tags.map (fun tag => (tags.count tag, tag))).dedup
  List.insertionSort pairLe tag_counts

/-- The number of entries containing a tag. -/
def countEntriesWith (t : List Char) (entries : List Entry) : Nat :=
  (entries.filter (fun e => decide (t ∈ e.tags))).length

/-- Occurrence count in a list of tags, spelled with `filter` to stay
independent of `BEq` instances. -/
def countLC (t : List Char) (l : List (List Char)) : Nat :=
  (l.filter (fun x => decide (x = t))).length

theorem count_eq_countLC (t : List Char) : ∀ l : List (List Char),
    l.count t = countLC t l := by
  intro l
  induction l with
  | nil => rfl
  | cons x xs ih =>
    unfold countLC
    rw [List.count_cons, List.filter_cons, ih]
    by_cases hx : x = t
    · subst hx
      simp [countLC, Nat.add_comm]
    · simp [countLC, hx]

theorem countLC_nodup (t : List Char) : ∀ l : List (List Char), l.Nodup →
    countLC t l = if t ∈ l then 1 else 0 := by
  intro l
  induction l with
  | nil => intro _; rfl
  | cons x xs ih =>
    intro hnd
    rcases List.nodup_cons.1 hnd with ⟨hx, hxs⟩
    unfold countLC
    by_cases hxt : x = t
    · rw [List.filter_cons_of_pos (by simp [hxt])]
      have hnt : t ∉ xs := by
        rw [← hxt]
        exact hx
      have h0 : (xs.filter (fun y => decide (y = t))).length = 0 := by
        have hc := ih hxs
        unfold countLC at hc
        rw [hc, if_neg hnt]
      have hmem : t ∈ x :: xs := by
        rw [← hxt]
        exact List.mem_cons_self x xs
      rw [if_pos hmem, List.length_cons, h0]
    · rw [List.filter_cons_of_neg (by simp [hxt])]
      have hc := ih hxs
      unfold countLC at hc
      rw [hc]
      have hmemiff : (t ∈ x :: xs) ↔ (t ∈ xs) := by
        rw [List.mem_cons]
        constructor
        · rintro (h | h)
          · exact absurd h.symm hxt
          · exact h
        · exact Or.inr
      by_cases hm : t ∈ xs
      · rw [if_pos hm, if_pos (hmemiff.2 hm)]
      · rw [if_neg hm, if_neg (fun hc2 => hm (hmemiff.1 hc2))]

theorem count_flatMap_dedup (t : List Char) :
    ∀ entries : List Entry,
      (entries.flatMap (fun entry => entry.tags.dedup)).count t
        = countEntriesWith t entries := by
  intro entries
  induction entries with
  | nil => rfl
  | cons e es ih =>
    show (e.tags.dedup ++ es.flatMap (fun entry => entry.tags.dedup)).count t = _
    rw [List.count_append, ih, count_eq_countLC,
      countLC_nodup t e.tags.dedup (List.nodup_dedup e.tags)]
    unfold countEntriesWith
    by_cases h : t ∈ e.tags
    · rw [if_pos ((List.mem_dedup).2 h)]
      have hf : (e :: es).filter (fun e => decide (t ∈ e.tags))
          = e :: es.filter (fun e => decide (t ∈ e.tags)) := by
        rw [List.filter_cons_of_pos (by simpa using h)]
      rw [hf]
      simp [Nat.add_comm]
    · rw [if_neg (fun hc => h ((List.mem_dedup).1 hc))]
      have hf : (e :: es).filter (fun e => decide (t ∈ e.tags))
          = es.filter (fun e => decide (t ∈ e.tags)) := by
        rw [List.filter_cons_of_neg (by simpa using h)]
      rw [hf]
      simp

theorem mem_flatMap_dedup_iff (t : List Char) (entries : List Entry) :
    t ∈ entries.flatMap (fun entry => entry.tags.dedup) ↔ ∃ e ∈ entries, t ∈ e.tags := by
  simp [List.mem_flatMap]

/-! ### Claim C5: tag aggregation -/

/-- C5: `Journal.tags` returns one `(count, name)` pair per distinct tag
occurring in the journal — a pair is in the result iff its tag occurs in some
entry and its count is the number of entries containing that tag (an entry
contributes at most once per distinct tag, however often the tag occurs in
its `tags` occurrence list) — no tag name appears twice, and the result is
sorted ascending by `(count, name)`. -/
theorem claim5_tags (entries : List Entry) :
    (∀ c t, (c, t) ∈ journalTags entries
        ↔ ((∃ e ∈ entries, t ∈ e.tags) ∧ c = countEntriesWith t entries))
      ∧ List.Sorted pairLe (journalTags entries)
      ∧ ((journalTags entries).map Prod.snd).Nodup := by
  have hperm := List.perm_insertionSort pairLe
    ((entries.flatMap (fun entry => entry.tags.dedup)).map
      (fun tag => ((entries.flatMap (fun entry => entry.tags.dedup)).count tag, tag))).dedup
  have hmem : ∀ c t, (c, t) ∈ journalTags entries
      ↔ ((∃ e ∈ entries, t ∈ e.tags) ∧ c = countEntriesWith t entries) := by
    intro c t
    unfold journalTags
    rw [List.Perm.mem_iff (hperm)]
    rw [List.mem_dedup, List.mem_map]
    constructor
    · rintro ⟨tag, htag, heq⟩
      obtain ⟨h1, h2⟩ : (entries.flatMap (fun entry => entry.tags.dedup)).count tag = c
          ∧ tag = t := by
        constructor
        · exact congrArg Prod.fst heq
        · exact congrArg Prod.snd heq
      subst h2
      refine ⟨(mem_flatMap_dedup_iff tag entries).1 htag, ?_⟩
      rw [← h1, count_flatMap_dedup]
    · rintro ⟨hocc, hc⟩
      refine ⟨t, (mem_flatMap_dedup_iff t entries).2 hocc, ?_⟩
      rw [count_flatMap_dedup, ← hc]
  refine ⟨hmem, List.sorted_insertionSort pairLe _, ?_⟩
  have hnodup : (journalTags entries).Nodup := by
    unfold journalTags
    exact (List.Perm.nodup_iff hperm).2 (List.nodup_dedup _)
  apply List.Nodup.map_on _ hnodup
  rintro ⟨c1, t1⟩ h1 ⟨c2, t2⟩ h2 hsnd
  simp only at hsnd
  subst hsnd
  have e1 := (hmem c1 t1).1 h1
  have e2 := (hmem c2 t1).1 h2
  rw [e1.2, e2.2]

def entriesW5 : List Entry :=
  [{ date := 1, text := ['A'], tags := [['@', 'a'], ['@', 'a']] },
   { date := 2, text := ['B'], tags := [['@', 'a'], ['@', 'b']] }]

theorem claim5_witness :
    ((2, [('@' : Char), 'a']) ∈ journalTags entriesW5
        ↔ ((∃ e ∈ entriesW5, [('@' : Char), 'a'] ∈ e.tags)
            ∧ 2 = countEntriesWith ['@', 'a'] entriesW5))
      ∧ List.Sorted pairLe (journalTags entriesW5) :=
  ⟨(claim5_tags entriesW5).1 2 ['@', 'a'], (claim5_tags entriesW5).2.1⟩

/-! ### `Journal.limit` -/

/-- `Journal.limit`: `if n: self.entries = self.entries[-n:]`.  `none` models
Python `None`; `some 0` is falsy, so nothing happens; for positive `n` the
slice `[-n:]` keeps the last `n` elements (all of them when `n` exceeds the
length). -/
def journalLimit (n : Option Nat) (entries : List Entry) : List Entry :=
  match n with
  | none => entries
  | some k => if k ≠ 0 then entries.drop (entries.length - k) else entries

/-! ### Claim C10: limit keeps the last n entries; None and 0 are no-ops -/

/-- C10: `limit n` with positive `n` keeps exactly the last `n` entries of
the sequence in order (the result is the final segment of length
`min n (length)`), while `limit None` and `limit 0` leave the entries
completely unchanged. -/
theorem claim10_limit (entries : List Entry) (n : Nat) :
    journalLimit none entries = entries
  ∧ journalLimit (some 0) entries = entries
  ∧ (0 < n →
      entries = entries.take (entries.length - n) ++ journalLimit (some n) entries
        ∧ (journalLimit (some n) entries).length = min n entries.length) := by
  refine ⟨rfl, by simp [journalLimit], ?_⟩
  intro hn
  have hne : n ≠ 0 := Nat.pos_iff_ne_zero.1 hn
  have hl : journalLimit (some n) entries = entries.drop (entries.length - n) := by
    simp [journalLimit, hne]
  constructor
  · rw [hl, List.take_append_drop]
  · rw [hl, List.length_drop]
    omega

def entriesW10 : List Entry :=
  [{ date := 1, text := ['A'] }, { date := 2, text := ['B'] }, { date := 3, text := ['C'] }]

theorem claim10_witness :
    entriesW10 = entriesW10.take (entriesW10.length - 2)
        ++ journalLimit (some 2) entriesW10
      ∧ (journalLimit (some 2) entriesW10).length = min 2 entriesW10.length :=
  (claim10_limit entriesW10 2).2.2 (by decide)

/-! ### `Journal.new_entry` -/

/-- One pass of Python `str.replace` (left to right, non-overlapping):
`skip` counts characters of a replaced occurrence still to be dropped. -/
def replaceSubGo (pat repl : List Char) : List Char → Nat → List Char
  | [], _ => []
  | _ :: cs, skip + 1 => replaceSubGo pat repl cs skip
  | c :: cs, 0 =>
    if pat ≠ [] ∧ pat.isPrefixOf (c :: cs) then
      repl ++ replaceSubGo pat repl cs (pat.length - 1)
    else c :: replaceSubGo pat repl cs 0

def replaceSub (pat repl s : List Char) : List Char :=
  replaceSubGo pat repl s 0

/-- `raw.replace('\\n ', '\n').replace('\\n', '\n')`: literal backslash-n
escape sequences are normalized to real newlines. -/
def normEscapes (raw : List Char) : List Char :=
  replaceSub ['\\', 'n'] ['\n'] (replaceSub ['\\', 'n', ' '] ['\n'] raw)

/-- The characters of the title-boundary class `[\?!.]`. -/
def isPunct (c : Char) : Bool := c = '?' || c = '!' || c = '.'

/-- End position of the first match of `re.search("\n|[\?!.]+ +\n?", raw)`,
or `none` when there is no match.  At each position the `\n` alternative is
tried first; otherwise a maximal run of `?!.` must be followed by at least
one space and an optional newline; on failure the search moves one character
to the right. -/
def sepEndAux : List Char → Nat → Option Nat
  | [], _ => none
  | c :: cs, p =>
    if c = '\n' then some (p + 1)
    else if isPunct c then
      match cs.drop (cs.takeWhile isPunct).length with
      | ' ' :: _ =>
        let afterPunct := cs.drop (cs.takeWhile isPunct).length
        let s := (afterPunct.takeWhile (fun ch => ch = ' ')).length
        some (p + (1 + (cs.takeWhile isPunct).length) + s
          + (match afterPunct.drop s with | '\n' :: _ => 1 | _ => 0))
      | _ => sepEndAux cs (p + 1)
    else sepEndAux cs (p + 1)

def sepEnd (raw : List Char) : Option Nat := sepEndAux raw 0

/-- `first_line = raw[:sep.end()].strip() if sep else raw`. -/
def firstLineOf (raw : List Char) : List Char :=
  match sepEnd raw with
  | some e => pstrip (raw.take e)
  | none => raw

/-- Python `str.find` returning the first match position (`none` = `-1`). -/
def findSub (pat : List Char) : List Char → Option Nat
  | [] => none
  | c :: cs =>
    if pat.isPrefixOf (c :: cs) then some 0
    else (findSub pat cs).map (fun i => i + 1)

def startsWithStar (t : List Char) : Bool := t.head? = some '*'

def endsWithStar (t : List Char) : Bool := t.getLast? = some '*'

def nowStr : List Char := ['n', 'o', 'w']

/-- The result of `time.parse(raw[:colon_pos], default_hour=..., default_minute=...)`
in `new_entry`'s date scan: `none` unless a `": "` occurs at a positive
position of the first line and the prefix of `raw` up to that position
resolves.  (`oracleDH` is the date oracle with the configured
`default_hour`/`default_minute` applied.) -/
def newEntryScan (oracleDH : List Char → Option Nat) (raw : List Char) : Option Nat :=
  match findSub [':', ' '] (firstLineOf raw) with
  | some cp => if 0 < cp then oracleDH (raw.take cp) else none
  | none => none

/-- The entry data produced by `Journal.new_entry` (date may be absent if
even the `"now"` fallback fails to resolve). -/
structure NEntry where
  date : Option Nat
  text : List Char
  starred : Bool
deriving DecidableEq

/-- `Journal.new_entry`: normalize escapes, find the first-line boundary,
and — when no date argument was supplied — look for a `": "` separator in the
first line at a positive position and try to resolve the prefix of `raw`
before it as a date; on success the prefix is stripped from the raw text and
a `*` just before the separator stars the entry.  The starred flag is then
OR-ed with the first line starting or ending with `*`, and a still-missing
date falls back to resolving the literal `"now"`. -/
def new_entry (oracle oracleDH : List Char → Option Nat) (raw0 : List Char)
    (dateArg : Option Nat) : NEntry :=
  let raw := normEscapes raw0
  let first_line := firstLineOf raw
  let dsr :=
    match dateArg with
    | some d => (some d, false, raw)
    | none =>
      match findSub [':', ' '] first_line with
      | some cp =>
        if 0 < cp then
          match oracleDH (raw.take cp) with
          | some d =>
            (some d, endsWithStar (pstrip (raw.take cp)), pstrip (raw.drop (cp + 1)))
          | none => (none, false, raw)
        else (none, false, raw)
      | none => (none, false, raw)
  let starred := dsr.2.1 || startsWithStar first_line || endsWithStar first_line
  let date := match dsr.1 with | some d => some d | none => oracle nowStr
  ⟨date, dsr.2.2, starred⟩

/-! ### Claim C7: date fallback to "now" consumes no text -/

/-- C7: for every raw input to `new_entry` with no caller-supplied date, if
no `": "`-prefixed date is found or its resolution fails (the scan yields
nothing), then the entry's date is whatever resolving the literal `"now"`
yields — resolution never fails outright when `"now"` resolves — and the raw
text passed to the new entry is the escape-normalized input, untouched by any
date stripping. -/
theorem claim7_now_fallback (oracle oracleDH : List Char → Option Nat)
    (raw0 : List Char)
    (h : newEntryScan oracleDH (normEscapes raw0) = none) :
    (new_entry oracle oracleDH raw0 none).date = oracle nowStr
  ∧ (new_entry oracle oracleDH raw0 none).text = normEscapes raw0 := by
  unfold newEntryScan at h
  simp only [new_entry]
  cases hfs : findSub [':', ' '] (firstLineOf (normEscapes raw0)) with
  | none =>
    exact ⟨rfl, rfl⟩
  | some cp =>
    rw [hfs] at h
    dsimp only at h
    by_cases hcp : 0 < cp
    · rw [if_pos hcp] at h
      dsimp only
      rw [if_pos hcp, h]
      exact ⟨rfl, rfl⟩
    · rw [if_neg hcp] at h
      dsimp only
      rw [if_neg hcp]
      exact ⟨rfl, rfl⟩

def oDH7 : List Char → Option Nat := fun _ => none

def oNow7 : List Char → Option Nat := fun s => if s = nowStr then some 77 else none

theorem claim7_witness :
    (new_entry oNow7 oDH7 ['h', 'i', ':', ' ', 'x'] none).date = oNow7 nowStr
  ∧ (new_entry oNow7 oDH7 ['h', 'i', ':', ' ', 'x'] none).text
      = normEscapes ['h', 'i', ':', ' ', 'x'] :=
  claim7_now_fallback oNow7 oDH7 ['h', 'i', ':', ' ', 'x'] (by decide)

/-! ### Claim C8: the starred flag -/

/-- The scan component of the starred flag: a `*` (after stripping) at the
end of the raw prefix before a successfully resolved `": "` separator. -/
def starredScan (oracleDH : List Char → Option Nat) (dateArg : Option Nat)
    (raw : List Char) : Bool :=
  match dateArg with
  | some _ => false
  | none =>
    match findSub [':', ' '] (firstLineOf raw) with
    | some cp =>
      if 0 < cp then
        match oracleDH (raw.take cp) with
        | some _ => endsWithStar (pstrip (raw.take cp))
        | none => false
      else false
    | none => false

/-- The starred flag exactly as the claim states it: the OR of the detected
pre-separator star and a star at the start or end of the first line of the
possibly already date-stripped raw text. -/
def claimStarred (oracleDH : List Char → Option Nat) (raw0 : List Char) : Bool :=
  let raw := normEscapes raw0
  match findSub [':', ' '] (firstLineOf raw) with
  | some cp =>
    if 0 < cp then
      match oracleDH (raw.take cp) with
      | some _ =>
        let stripped := pstrip (raw.drop (cp + 1))
        endsWithStar (pstrip (raw.take cp))
          || startsWithStar (firstLineOf stripped) || endsWithStar (firstLineOf stripped)
      | none => startsWithStar (firstLineOf raw) || endsWithStar (firstLineOf raw)
    else startsWithStar (firstLineOf raw) || endsWithStar (firstLineOf raw)
  | none => startsWithStar (firstLineOf raw) || endsWithStar (firstLineOf raw)

def oDH8 : List Char → Option Nat := fun s => if s = nowStr then some 7 else none

def rawW8 : List Char := ['n', 'o', 'w', ':', ' ', '*', 'h', 'i']

/-- C8 counterexample: with input `"now: *hello"`-style text whose date
prefix resolves, the code's starred flag (computed from the first line of
the input before date stripping) is `false`, while the claim's formula
(which looks at the date-stripped first line `"*hi"`) is `true`. -/
theorem claim8_counterexample :
    (new_entry oNone oDH8 rawW8 none).starred = false
  ∧ claimStarred oDH8 rawW8 = true := by
  constructor
  · rfl
  · rfl

/-- C8 (amended): the starred flag equals the OR of the star detected just
before a successfully resolved `": "` date separator and a star at the start
or end of the first line of the input as computed before any date stripping
(the code never recomputes the first line after stripping the date). -/
theorem claim8_amended_starred (oracle oracleDH : List Char → Option Nat)
    (raw0 : List Char) (dateArg : Option Nat) :
    (new_entry oracle oracleDH raw0 dateArg).starred
      = (starredScan oracleDH dateArg (normEscapes raw0)
          || startsWithStar (firstLineOf (normEscapes raw0))
          || endsWithStar (firstLineOf (normEscapes raw0))) := by
  simp only [new_entry, starredScan]
  cases dateArg with
  | some d => rfl
  | none =>
    cases hfs : findSub [':', ' '] (firstLineOf (normEscapes raw0)) with
    | none => rfl
    | some cp =>
      dsimp only
      by_cases hcp : 0 < cp
      · rw [if_pos hcp, if_pos hcp]
        cases hdh : oracleDH ((normEscapes raw0).take cp) with
        | none => rfl
        | some d => rfl
      · rw [if_neg hcp, if_neg hcp]

/-! ### `LegacyJournal._parse` -/

/-- The line boundaries Python `str.splitlines` recognizes: `\n`, `\r`
(with `\r\n` counting as one boundary), `\v`, `\f`, `\x1c`-`\x1e`,
`\x85`, and U+2028/U+2029. -/
def isLineBoundary (c : Char) : Bool :=
  c = '\n' || c = '\r' || c = '\x0b' || c = '\x0c' || c = '\x1c' || c = '\x1d'
    || c = '\x1e' || c = '\x85' || c = '\u2028' || c = '\u2029'

/-- Helper for `splitlines`: accumulates the current line (reversed); a
`\r` immediately followed by `\n` is one boundary. -/
def splitlinesGo : List Char → List Char → List (List Char)
  | [], acc => [acc.reverse]
  | '\r' :: '\n' :: cs, acc =>
    acc.reverse :: (if cs.isEmpty then [] else splitlinesGo cs [])
  | c :: cs, acc =>
    if isLineBoundary c then
      acc.reverse :: (if cs.isEmpty then [] else splitlinesGo cs [])
    else splitlinesGo cs (c :: acc)

/-- Python `str.splitlines`: split at every recognized line boundary, with
no trailing empty line for a trailing boundary; the empty string yields no
lines. -/
def splitlines (txt : List Char) : List (List Char) :=
  if txt.isEmpty then [] else splitlinesGo txt []

/-- The entry opened by a successfully parsed (right-stripped) line: a
trailing `*` marks it starred and is cut before the text is sliced past the
date field. -/
def legacyOpen (dlen : Nat) (d : Nat) (line : List Char) : Entry :=
  if line.getLast? = some '*' then
    { date := d, text := (line.dropLast).drop (dlen + 1), starred := true }
  else
    { date := d, text := line.drop (dlen + 1), starred := false }

/-- One line of the `LegacyJournal._parse` loop.  `oracle` models
`datetime.strptime(·, timeformat)` (`none` is the caught `ValueError`) and
`dlen` the computed date-field width.  On a successful parse the previous
open entry is flushed and a new one opened (`legacyOpen`); on failure the
line is appended to the open entry's text with a trailing newline, or
dropped if no entry is open. -/
def legacyStep (oracle : List Char → Option Nat) (dlen : Nat)
    (state : List Entry × Option Entry) (rawline : List Char) :
    List Entry × Option Entry :=
  let line := rstrip rawline
  match oracle (line.take dlen) with
  | some d =>
    let entries := match state.2 with
      | some c => state.1 ++ [c]
      | none => state.1
    (entries, some (legacyOpen dlen d line))
  | none =>
    match state.2 with
    | some c => (state.1, some { c with text := c.text ++ line ++ ['\n'] })
    | none => (state.1, none)

/-- The final `if current_entry: entries.append(current_entry)` flush. -/
def legacyFinish (st : List Entry × Option Entry) : List Entry :=
  match st.2 with
  | some c => st.1 ++ [c]
  | none => st.1

/-- The loop of `LegacyJournal._parse` over the lines, with the final flush
of the last open entry.  (`entry._parse_text()` is external and does not
change `date`/`text`/`starred`.) -/
def legacyParseLines (oracle : List Char → Option Nat) (dlen : Nat)
    (lines : List (List Char)) : List Entry :=
  legacyFinish (lines.foldl (legacyStep oracle dlen) ([], none))

/-- `LegacyJournal._parse` on a full text. -/
def legacyParse (oracle : List Char → Option Nat) (dlen : Nat)
    (txt : List Char) : List Entry :=
  legacyParseLines oracle dlen (splitlines txt)

/-- The entry a group — one parsing line `g` followed by continuation lines
`body` that all fail to parse — contributes: the opened entry with every
continuation line appended right-stripped plus a newline. -/
def legacyGroupEntry (dlen : Nat) (d : Nat) (g : List Char)
    (body : List (List Char)) : Entry :=
  let c := legacyOpen dlen d (rstrip g)
  { c with text := c.text ++ body.flatMap (fun L => rstrip L ++ ['\n']) }

theorem legacy_foldl_fail_none (oracle : List Char → Option Nat) (dlen : Nat) :
    ∀ (rest : List (List Char)) (entries : List Entry),
      (∀ L ∈ rest, oracle ((rstrip L).take dlen) = none) →
      rest.foldl (legacyStep oracle dlen) (entries, none) = (entries, none) := by
  intro rest
  induction rest with
  | nil => intro entries _; rfl
  | cons L rest ih =>
    intro entries hfail
    rw [List.foldl_cons]
    have hstep : legacyStep oracle dlen (entries, none) L = (entries, none) := by
      simp only [legacyStep]
      rw [hfail L (by simp)]
    rw [hstep]
    exact ih entries (fun x hx => hfail x (by simp [hx]))

theorem legacy_foldl_fail_some (oracle : List Char → Option Nat) (dlen : Nat) :
    ∀ (rest : List (List Char)) (entries : List Entry) (c : Entry),
      (∀ L ∈ rest, oracle ((rstrip L).take dlen) = none) →
      rest.foldl (legacyStep oracle dlen) (entries, some c)
        = (entries, some { c with
            text := c.text ++ rest.flatMap (fun L => rstrip L ++ ['\n']) }) := by
  intro rest
  induction rest with
  | nil =>
    intro entries c _
    show (entries, some c) = _
    rw [List.flatMap_nil, List.append_nil]
  | cons L rest ih =>
    intro entries c hfail
    rw [List.foldl_cons]
    have hstep : legacyStep oracle dlen (entries, some c) L
        = (entries, some { c with text := c.text ++ rstrip L ++ ['\n'] }) := by
      simp only [legacyStep]
      rw [hfail L (by simp)]
    rw [hstep, ih entries _ (fun x hx => hfail x (by simp [hx]))]
    rw [List.flatMap_cons]
    simp [List.append_assoc]

theorem legacyStep_success_none {oracle : List Char → Option Nat} {dlen : Nat}
    {g : List Char} {d : Nat} (entries : List Entry)
    (hg : oracle ((rstrip g).take dlen) = some d) :
    legacyStep oracle dlen (entries, none) g
      = (entries, some (legacyOpen dlen d (rstrip g))) := by
  simp only [legacyStep]
  rw [hg]

theorem legacyStep_success_some {oracle : List Char → Option Nat} {dlen : Nat}
    {g : List Char} {d : Nat} (entries : List Entry) (c : Entry)
    (hg : oracle ((rstrip g).take dlen) = some d) :
    legacyStep oracle dlen (entries, some c) g
      = (entries ++ [c], some (legacyOpen dlen d (rstrip g))) := by
  simp only [legacyStep]
  rw [hg]

/-- Running the fold over flattened groups from a state with an open entry:
the open entry and then one entry per group are emitted. -/
theorem legacy_groups_some (oracle : List Char → Option Nat) (dlen : Nat) :
    ∀ (gs : List (List Char × Nat × List (List Char)))
      (entries : List Entry) (c : Entry),
      (∀ gb ∈ gs, oracle ((rstrip gb.1).take dlen) = some gb.2.1
        ∧ ∀ L ∈ gb.2.2, oracle ((rstrip L).take dlen) = none) →
      legacyFinish ((gs.flatMap (fun gb => gb.1 :: gb.2.2)).foldl
          (legacyStep oracle dlen) (entries, some c))
        = entries ++ c :: gs.map (fun gb => legacyGroupEntry dlen gb.2.1 gb.1 gb.2.2) := by
  intro gs
  induction gs with
  | nil => intro entries c _; rfl
  | cons gb gs ih =>
    intro entries c hgs
    obtain ⟨g, d, body⟩ := gb
    obtain ⟨hg, hbody⟩ := hgs (g, d, body) (by simp)
    rw [List.flatMap_cons, List.cons_append, List.foldl_cons,
      legacyStep_success_some entries c hg, List.foldl_append,
      legacy_foldl_fail_some oracle dlen body (entries ++ [c]) _ hbody,
      ih (entries ++ [c]) _ (fun x hx => hgs x (by simp [hx]))]
    simp [legacyGroupEntry, List.append_assoc]

/-- The same, starting with no open entry. -/
theorem legacy_groups_none (oracle : List Char → Option Nat) (dlen : Nat)
    (gs : List (List Char × Nat × List (List Char))) (entries : List Entry)
    (hgs : ∀ gb ∈ gs, oracle ((rstrip gb.1).take dlen) = some gb.2.1
      ∧ ∀ L ∈ gb.2.2, oracle ((rstrip L).take dlen) = none) :
    legacyFinish ((gs.flatMap (fun gb => gb.1 :: gb.2.2)).foldl
        (legacyStep oracle dlen) (entries, none))
      = entries ++ gs.map (fun gb => legacyGroupEntry dlen gb.2.1 gb.1 gb.2.2) := by
  cases gs with
  | nil => simp [legacyFinish]
  | cons gb gs =>
    obtain ⟨g, d, body⟩ := gb
    obtain ⟨hg, hbody⟩ := hgs (g, d, body) (by simp)
    rw [List.flatMap_cons, List.cons_append, List.foldl_cons,
      legacyStep_success_none entries hg, List.foldl_append,
      legacy_foldl_fail_some oracle dlen body entries _ hbody,
      legacy_groups_some oracle dlen gs entries _
        (fun x hx => hgs x (by simp [hx]))]
    simp [legacyGroupEntry, List.append_assoc]

/-! ### Claim C6: the legacy parser is total; failed lines are continuations -/

/-- C6: the legacy parser is a total function (the `ValueError` of a failed
`strptime` is modelled by the oracle returning `none`; nothing is thrown)
and is characterized on every input.  Write the lines of the text as leading
lines that all fail the date-field parse followed by groups, each one line
whose date-field-width prefix parses and then lines that all fail — every
line list decomposes this way.  Then the parser emits exactly one entry per
group: each failing line is appended, right-stripped and with a trailing
newline, to the body of the entry opened by its group's parsing line;
failing lines before any entry are dropped; and every opened entry — in
particular the last open one — is emitted at end of input. -/
theorem claim6_legacy (oracle : List Char → Option Nat) (dlen : Nat)
    (txt : List Char) (junk : List (List Char))
    (gs : List (List Char × Nat × List (List Char)))
    (hsplit : splitlines txt = junk ++ gs.flatMap (fun gb => gb.1 :: gb.2.2))
    (hjunk : ∀ L ∈ junk, oracle ((rstrip L).take dlen) = none)
    (hgs : ∀ gb ∈ gs, oracle ((rstrip gb.1).take dlen) = some gb.2.1
      ∧ ∀ L ∈ gb.2.2, oracle ((rstrip L).take dlen) = none) :
    legacyParse oracle dlen txt
      = gs.map (fun gb => legacyGroupEntry dlen gb.2.1 gb.1 gb.2.2) := by
  unfold legacyParse legacyParseLines
  rw [hsplit, List.foldl_append,
    legacy_foldl_fail_none oracle dlen junk [] hjunk,
    legacy_groups_none oracle dlen gs [] hgs]
  rfl

def oW6 : List Char → Option Nat := fun s =>
  if s = ['d', '2', '0', '2', '0'] then some 42
  else if s = ['d', '2', '0', '2', '1'] then some 43
  else none

def txtW6 : List Char :=
  ['j', 'u', 'n', 'k', '\n',
   'd', '2', '0', '2', '0', ' ', 'o', 'n', 'e', '*', '\n',
   'c', '1', '\n',
   'd', '2', '0', '2', '1', ' ', 't', 'w', 'o', '\r',
   'c', '2']

theorem claim6_witness :
    legacyParse oW6 5 txtW6
      = [legacyGroupEntry 5 42 ['d', '2', '0', '2', '0', ' ', 'o', 'n', 'e', '*'] [['c', '1']],
         legacyGroupEntry 5 43 ['d', '2', '0', '2', '1', ' ', 't', 'w', 'o'] [['c', '2']]] := by
  exact claim6_legacy oW6 5 txtW6 [['j', 'u', 'n', 'k']]
    [(['d', '2', '0', '2', '0', ' ', 'o', 'n', 'e', '*'], 42, [['c', '1']]),
     (['d', '2', '0', '2', '1', ' ', 't', 'w', 'o'], 43, [['c', '2']])]
    (by decide) (by decide) (by decide)

end Jrnl
